import Mathlib

/-!
Verification of core behaviors of `src/browser.py`, a pedagogical web
browser engine.  The Python source is shallowly embedded: Python `str`
values are modelled as `List Char`, machine-level mutation is modelled by
explicit state passing, exceptions are modelled by `Option`, and external
collaborators (the `email.utils` date parser, the `float` constructor on
arbitrary strings, the font backend) are taken as function parameters of
the embedded operations, so theorems quantify over their behavior.
-/

set_option maxRecDepth 20000

namespace BrowserPy

/-- Python `str` is modelled as a list of characters. -/
abbrev Str := List Char

/-- Coerce a Lean string literal into the model type. -/
def strL (s : String) : Str := s.data

/-- The six ASCII whitespace characters recognized by Python `str.strip`,
`str.split()` and `str.isspace` (the unicode cases are not modelled). -/
def isPySpace (c : Char) : Bool :=
  c = ' ' ∨ c = '\t' ∨ c = '\n' ∨ c = '\r' ∨ c = '\x0b' ∨ c = '\x0c'

/-- ASCII lowercasing of one character; models Python `str.lower` and
`str.casefold`, which agree on ASCII (non-ASCII is not modelled). -/
def lowerChar (c : Char) : Char :=
  if 'A' ≤ c ∧ c ≤ 'Z' then Char.ofNat (c.toNat + 32) else c

/-- Models Python `str.lower` / `str.casefold` on ASCII strings. -/
def lowerStr (s : Str) : Str := s.map lowerChar

/-- Models Python `str.strip()` with no arguments. -/
def pyStrip (s : Str) : Str :=
  ((s.dropWhile isPySpace).reverse.dropWhile isPySpace).reverse

/-- Models Python `s.split(c, 1)` when the one-character separator occurs
(`some (before, after)`), and its absence (`none`, in which case Python's
two-target unpacking of the result raises). -/
def splitFirstChar (c : Char) : Str → Option (Str × Str)
  | [] => none
  | x :: xs =>
    if x = c then some ([], xs)
    else
      match splitFirstChar c xs with
      | none => none
      | some (l, r) => some (x :: l, r)

/-- Models Python `s.split(sep, 1)` for a multi-character separator, as
used by `URL.__init__` for `"://"`. -/
def splitFirstStr (sep : Str) : Str → Option (Str × Str)
  | [] => if sep.isPrefixOf ([] : Str) then some ([], []) else none
  | x :: xs =>
    if sep.isPrefixOf (x :: xs) then some ([], (x :: xs).drop sep.length)
    else
      match splitFirstStr sep xs with
      | none => none
      | some (l, r) => some (x :: l, r)

/-- Models Python `s.split(c)` with a separator argument: all fields are
kept, including empty ones (`"a;;b".split(";") == ["a","","b"]`). -/
def splitAllChar (c : Char) : Str → List Str
  | [] => [[]]
  | x :: xs =>
    if x = c then [] :: splitAllChar c xs
    else
      match splitAllChar c xs with
      | [] => [[x]]
      | r :: rs => (x :: r) :: rs

/-- Helper for `pySplitWs`: accumulates the current word in reverse. -/
def pySplitWsAux : Str → Str → List Str
  | [], acc => if acc = [] then [] else [acc.reverse]
  | c :: cs, acc =>
    if isPySpace c then
      if acc = [] then pySplitWsAux cs [] else acc.reverse :: pySplitWsAux cs []
    else pySplitWsAux cs (c :: acc)

/-- Models Python `s.split()` with no arguments: split on whitespace runs,
dropping empty fields. -/
def pySplitWs (s : Str) : List Str := pySplitWsAux s []

/-- Models Python `s.isspace()`: nonempty and all whitespace. -/
def isSpaceStr (s : Str) : Bool := decide (s ≠ []) && s.all isPySpace

/-- Python `dict` insertion: overwriting an existing key keeps its
position, a new key is appended. -/
def dictInsert {α : Type} (k : Str) (v : α) : List (Str × α) → List (Str × α)
  | [] => [(k, v)]
  | (k2, v2) :: rest => if k2 = k then (k, v) :: rest else (k2, v2) :: dictInsert k v rest

/-- Python `dict` lookup (`d.get(k)`). -/
def dictGet {α : Type} (k : Str) : List (Str × α) → Option α
  | [] => none
  | (k2, v) :: rest => if k2 = k then some v else dictGet k rest

/-- Value of an ASCII digit character. -/
def digVal (c : Char) : Nat := c.toNat - 48

/-- The ASCII digit character for a value below ten. -/
def digitChar (d : Nat) : Char := Char.ofNat (48 + d)

/-- Fuel-driven digit writer (structural recursion keeps the definition
kernel-computable; the fuel provably never binds, see `natReprL_eq`). -/
def natReprAux : Nat → Nat → Str
  | 0, _ => []
  | fuel + 1, n =>
    if n < 10 then [digitChar n]
    else natReprAux fuel (n / 10) ++ [digitChar (n % 10)]

/-- Decimal digits of a natural number; models Python `str(n)` for
nonnegative `n`. -/
def natReprL (n : Nat) : Str := natReprAux (n + 1) n

/-- Models Python `str(i)` for an `int`. -/
def intReprL (i : Int) : Str :=
  if i < 0 then '-' :: natReprL i.natAbs else natReprL i.toNat

/-- Digit scanner for `pyIntParse`: digits optionally separated by single
underscores, each underscore followed by a digit (Python `int` grammar
after the optional sign). -/
def digitsGo (acc : Nat) : Str → Option Nat
  | [] => some acc
  | c :: rest =>
    if c = '_' then
      match rest with
      | [] => none
      | c2 :: rest2 => if c2.isDigit then digitsGo (acc * 10 + digVal c2) rest2 else none
    else if c.isDigit then digitsGo (acc * 10 + digVal c) rest
    else none

/-- Nonempty digit sequence starting with a digit. -/
def digitsVal : Str → Option Nat
  | [] => none
  | c :: rest => if c.isDigit then digitsGo (digVal c) rest else none

/-- Models Python `int(s)`: strip whitespace, optional sign, decimal
digits with optional single underscores; `none` models `ValueError`. -/
def pyIntParse (s : Str) : Option Int :=
  match pyStrip s with
  | [] => none
  | c :: rest =>
    if c = '+' then (digitsVal rest).map Int.ofNat
    else if c = '-' then (digitsVal rest).map (fun n => -Int.ofNat n)
    else (digitsVal (c :: rest)).map Int.ofNat

/-- Models Python `"; ".join(parts)` and friends. -/
def interc (sep : Str) : List Str → Str
  | [] => []
  | [x] => x
  | x :: y :: rest => x ++ sep ++ interc sep (y :: rest)

/-! ## URL (`URL.__init__`, `URL.origin`, `URL.__str__`) -/

/-- The data carried by a `URL` instance after `__init__`. -/
structure URLm where
  scheme : Str
  host : Str
  port : Int
  path : Str
deriving DecidableEq, Repr

/-- Models `URL.__init__` (browser.py lines 175-184).  `none` models the
exceptions Python raises there: the unpacking failure when `"://"` is
absent, the failed `assert` on the scheme, and `int` failing on the port. -/
def parseURL (url : Str) : Option URLm :=
  match splitFirstStr (strL "://") url with
  | none => none
  | some (scheme, rest0) =>
    if scheme = strL "http" ∨ scheme = strL "https" then
      match splitFirstChar '/' (if '/' ∈ rest0 then rest0 else rest0 ++ ['/']) with
      | none => none
      | some (hostport, afterSlash) =>
        if ':' ∈ hostport then
          match splitFirstChar ':' hostport with
          | none => none
          | some (host, portStr) =>
            match pyIntParse portStr with
            | some p => some ⟨scheme, host, p, '/' :: afterSlash⟩
            | none => none
        else some ⟨scheme, hostport,
          (if scheme = strL "http" then (80 : Int) else 443), '/' :: afterSlash⟩
    else none

/-- Models `URL.origin` (lines 186-188): `f"{scheme}://{host}:{port}"`. -/
def originStr (u : URLm) : Str :=
  u.scheme ++ strL "://" ++ u.host ++ [':'] ++ intReprL u.port

/-- Models `URL.__str__` (lines 342-348): the port is printed exactly when
it is not the scheme's default. -/
def urlToString (u : URLm) : Str :=
  let show_port :=
    (u.scheme = strL "http" ∧ u.port ≠ 80) ∨ (u.scheme = strL "https" ∧ u.port ≠ 443)
  u.scheme ++ strL "://" ++ u.host ++
    (if show_port then ':' :: intReprL u.port else []) ++ u.path

/-! ## HTML nodes and parser (`Text`, `Element`, `HTMLParser`)

Python nodes are heap objects with mutable `children` and a `parent`
back-pointer.  The embedding gives every created node a serial number
(`oid`, modelling object identity) and records the parent pointer the
Python constructor received as a `parentId`; `children` lists are built
up exactly where the source appends to them.  The `unfinished` stack is
kept in reverse: the head of `HState.stack` is the TOP of Python's
`self.unfinished` list (its last element). -/

/-- A finished DOM node (`Text` or `Element`). -/
inductive DNode where
  | text (oid : Nat) (parentId : Option Nat) (s : Str)
  | elem (oid : Nat) (parentId : Option Nat) (tag : Str)
      (attrs : List (Str × Str)) (children : List DNode)

/-- An unfinished `Element` sitting on the parser stack. -/
structure OpenE where
  oid : Nat
  parentId : Option Nat
  tag : Str
  attrs : List (Str × Str)
  children : List DNode

/-- Parser state: the `unfinished` stack (head = top) plus the next
fresh object id. -/
structure HState where
  stack : List OpenE
  nextId : Nat

/-- Closing an open element produces the finished `Element` node. -/
def closeOpen (o : OpenE) : DNode := .elem o.oid o.parentId o.tag o.attrs o.children

/-- Models `parent.children.append(node)`. -/
def appendChild (o : OpenE) (n : DNode) : OpenE :=
  { o with children := o.children ++ [n] }

/-- `HTMLParser.SELF_CLOSING_TAGS`. -/
def SELF_CLOSING_TAGS : List Str :=
  [strL "area", strL "base", strL "br", strL "col", strL "embed", strL "hr",
   strL "img", strL "input", strL "link", strL "meta", strL "param",
   strL "source", strL "track", strL "wbr"]

/-- `HTMLParser.HEAD_TAGS`. -/
def HEAD_TAGS : List Str :=
  [strL "base", strL "basefont", strL "bgsound", strL "noscript",
   strL "link", strL "meta", strL "title", strL "style", strL "script"]

/-- `tag in l` where `tag` may be Python `None` (always false then). -/
def tagInOpt (tag : Option Str) (l : List Str) : Bool :=
  match tag with
  | none => false
  | some t => decide (t ∈ l)

/-- Models `HTMLParser.get_attributes` (lines 409-422). -/
def get_attributes (text : Str) : Str × List (Str × Str) :=
  match pySplitWs text with
  | [] => ([], [])
  | tag0 :: rest =>
    let attrs := rest.foldl (fun acc attrpair =>
      match splitFirstChar '=' attrpair with
      | some (key, value) =>
        let value :=
          if value.length > 2 ∧ (value.head? = some '\'' ∨ value.head? = some '"')
          then (value.drop 1).dropLast else value
        dictInsert (lowerStr key) value acc
      | none => dictInsert (lowerStr attrpair) [] acc) []
    (lowerStr tag0, attrs)

/-- The body of `HTMLParser.add_tag` after its `implicit_tags` call
(lines 451-465).  `impTags` is the `implicit_tags` method, needed again
in the self-closing branch when the stack is empty.  `none` models the
`IndexError` Python would raise on an empty stack. -/
def addTagCore (impTags : Option Str → HState → Option HState)
    (tag : Str) (attrs : List (Str × Str)) (st : HState) : Option HState :=
  if tag.head? = some '/' then
    match st.stack with
    | [] => none
    | [_] => some st
    | o1 :: o2 :: rest => some { st with stack := appendChild o2 (closeOpen o1) :: rest }
  else if tag ∈ SELF_CLOSING_TAGS then
    match st.stack with
    | top :: rest =>
      some { stack := appendChild top (.elem st.nextId (some top.oid) tag attrs []) :: rest,
             nextId := st.nextId + 1 }
    | [] =>
      (impTags (some tag) st).bind fun st2 =>
        match st2.stack with
        | [] => none
        | top :: rest =>
          some { stack := appendChild top (.elem st2.nextId (some top.oid) tag attrs []) :: rest,
                 nextId := st2.nextId + 1 }
  else
    match st.stack with
    | [] => some { stack := [⟨st.nextId, none, tag, attrs, []⟩], nextId := st.nextId + 1 }
    | top :: rest =>
      some { stack := ⟨st.nextId, some top.oid, tag, attrs, []⟩ :: top :: rest,
             nextId := st.nextId + 1 }

/-- Models `HTMLParser.add_tag` (lines 447-465) given an implementation
of `implicit_tags`. -/
def addTagWith (impTags : Option Str → HState → Option HState)
    (tagtext : Str) (st : HState) : Option HState :=
  if tagtext.head? = some '!' then some st
  else
    (impTags (some (get_attributes tagtext).1) st).bind
      (addTagCore impTags (get_attributes tagtext).1 (get_attributes tagtext).2)

/-- Models `HTMLParser.implicit_tags` (lines 424-436).  The `while True`
loop is driven by a fuel parameter; when the fuel is exhausted the loop
"breaks" (the loop provably breaks within four iterations from any
state, so the fixed fuel below never binds). -/
def implicitTagsF : Nat → Option Str → HState → Option HState
  | 0, _, st => some st
  | fuel + 1, tag, st =>
    match st.stack with
    | [] =>
      if tag ≠ some (strL "html") then
        (addTagWith (fun t s => implicitTagsF fuel t s) (strL "html") st).bind
          (fun s => implicitTagsF fuel tag s)
      else some st
    | [o1] =>
      if o1.tag = strL "html" ∧
          tagInOpt tag [strL "head", strL "body", strL "/html"] = false then
        (addTagWith (fun t s => implicitTagsF fuel t s)
            (if tagInOpt tag HEAD_TAGS then strL "head" else strL "body") st).bind
          (fun s => implicitTagsF fuel tag s)
      else some st
    | [o1, o2] =>
      if o2.tag = strL "html" ∧ o1.tag = strL "head" ∧
          tagInOpt tag (strL "/head" :: HEAD_TAGS) = false then
        (addTagWith (fun t s => implicitTagsF fuel t s) (strL "/head") st).bind
          (fun s => implicitTagsF fuel tag s)
      else some st
    | _ => some st

/-- Fuel for `implicit_tags`; the loop needs at most four iterations. -/
def FUEL : Nat := 8

/-- `HTMLParser.add_tag` with the fuelled `implicit_tags`. -/
def add_tag (tagtext : Str) (st : HState) : Option HState :=
  addTagWith (implicitTagsF FUEL) tagtext st

/-- Models `HTMLParser.add_text` (lines 438-445). -/
def add_text (text : Str) (st : HState) : Option HState :=
  if isSpaceStr text then some st
  else
    (implicitTagsF FUEL none st).bind fun st1 =>
      match st1.stack with
      | top :: rest =>
        some { stack := appendChild top (.text st1.nextId (some top.oid) text) :: rest,
               nextId := st1.nextId + 1 }
      | [] =>
        (implicitTagsF FUEL none st1).bind fun st2 =>
          match st2.stack with
          | [] => none
          | top :: rest =>
            some { stack := appendChild top (.text st2.nextId (some top.oid) text) :: rest,
                   nextId := st2.nextId + 1 }

/-- The `while len(self.unfinished) > 1` loop of `HTMLParser.finish`,
with the current stack top as accumulator: each step pops the top,
attaches it to the element below, which becomes the new top. -/
def finishAbsorb (top : OpenE) : List OpenE → DNode
  | [] => closeOpen top
  | o :: rest => finishAbsorb (appendChild o (closeOpen top)) rest

/-- The `while` loop of `HTMLParser.finish` followed by the final `pop`;
`none` models popping an empty list. -/
def finishLoop (l : List OpenE) : Option DNode :=
  match l with
  | [] => none
  | top :: rest => some (finishAbsorb top rest)

/-- Models `HTMLParser.finish` (lines 467-474). -/
def finish (st : HState) : Option DNode :=
  (match st.stack with
   | [] => implicitTagsF FUEL none st
   | _ :: _ => some st).bind fun st1 =>
    finishLoop st1.stack

/-- The character loop of `HTMLParser.parse` (lines 394-407). -/
def parseLoop : List Char → Str → Bool → HState → Option HState
  | [], text, in_tag, st =>
    if in_tag = false ∧ text ≠ [] then add_text text st else some st
  | c :: rest, text, in_tag, st =>
    if c = '<' then
      (if text ≠ [] then add_text text st else some st).bind fun s =>
        parseLoop rest [] true s
    else if c = '>' then
      (add_tag text st).bind fun s => parseLoop rest [] false s
    else parseLoop rest (text ++ [c]) in_tag st

/-- Models `HTMLParser(body).parse()`. -/
def parse (body : Str) : Option DNode :=
  (parseLoop body [] false ⟨[], 0⟩).bind finish

mutual

/-- All nodes of a tree (the node itself and its descendants). -/
def nodesOf : DNode → List DNode
  | .text oid p s => [.text oid p s]
  | .elem oid p tag attrs cs => .elem oid p tag attrs cs :: nodesForest cs

/-- All nodes of a forest. -/
def nodesForest : List DNode → List DNode
  | [] => []
  | c :: cs => nodesOf c ++ nodesForest cs

end

/-- The `parent` pointer recorded at node construction. -/
def parentIdOf : DNode → Option Nat
  | .text _ p _ => p
  | .elem _ p _ _ _ => p

/-- The object identity of a node. -/
def oidOf : DNode → Nat
  | .text oid _ _ => oid
  | .elem oid _ _ _ _ => oid

/-- The `children` list (empty for `Text` nodes). -/
def childrenOf : DNode → List DNode
  | .text _ _ _ => []
  | .elem _ _ _ _ cs => cs

/-- Whether a node is an `Element`. -/
def isElem : DNode → Prop
  | .text _ _ _ => False
  | .elem _ _ _ _ _ => True

/-- The tag of an `Element` node. -/
def tagOf : DNode → Option Str
  | .text _ _ _ => none
  | .elem _ _ tag _ _ => some tag

mutual

/-- Parent-pointer consistency of a finished tree: the node's recorded
parent is `pid`, and every child's recorded parent is this node. -/
def consTree : Option Nat → DNode → Prop
  | pid, .text _ p _ => p = pid
  | pid, .elem oid p _ _ cs => p = pid ∧ consForest (some oid) cs

/-- Parent-pointer consistency of a forest. -/
def consForest : Option Nat → List DNode → Prop
  | _, [] => True
  | pid, c :: cs => consTree pid c ∧ consForest pid cs

end

/-- Adjacency on the parser stack: each open element's recorded parent
is the element below it, and the bottom element's parent is `None`. -/
def adjOk : List OpenE → Prop
  | [] => True
  | [o] => o.parentId = none
  | o1 :: o2 :: rest => o1.parentId = some o2.oid ∧ adjOk (o2 :: rest)

/-- Each open element's finished children are consistent with it. -/
def stackOk : List OpenE → Prop
  | [] => True
  | o :: rest => consForest (some o.oid) o.children ∧ stackOk rest

/-- The bottom of the stack, if any, is the `html` element. -/
def bottomOk : List OpenE → Prop
  | [] => True
  | [o] => o.tag = strL "html"
  | _ :: o2 :: rest => bottomOk (o2 :: rest)

/-- The full parser-state invariant. -/
def hInv (st : HState) : Prop :=
  adjOk st.stack ∧ stackOk st.stack ∧ bottomOk st.stack

/-! ## Cookie jar (`COOKIE_JAR`, `URL.request` cookie header, `JSContext.get_cookie` / `set_cookie`)

A per-origin jar `COOKIE_JAR[origin]` maps cookie names to
`(value, params)`.  Param values are strings except that a parsed
`Expires` is overwritten with a float timestamp; `PVal` is that sum.
`email.utils.parsedate_to_datetime(...).timestamp()` and `float(...)`
on arbitrary strings are external collaborators, passed in as
`pd, pf : Str → Option Int` (timestamps are modelled as integers;
`none` models the exception on an unparseable input). -/

/-- A cookie parameter value: a string, or the numeric timestamp a
parsed `Expires` string was replaced with. -/
inductive PVal where
  | pstr (v : Str)
  | pnum (t : Int)
deriving DecidableEq, Repr

/-- Cookie params: a Python dict from (casefolded) key to value. -/
abbrev Params := List (Str × PVal)

/-- The jar for one origin: name, then `(value, params)`. -/
abbrev JarO := List (Str × (Str × Params))

/-- Python truthiness of `params.get('expires')`: `None`, the empty
string and the float `0.0` are falsy. -/
def truthyPVal : Option PVal → Bool
  | none => false
  | some (.pstr v) => decide (v ≠ [])
  | some (.pnum t) => decide (t ≠ 0)

/-- Dict lookup in cookie params. -/
def paramsGet (ps : Params) (k : Str) : Option PVal := dictGet k ps

/-- The expiry test of `URL.request` (lines 234-248): guarded by the
truthiness of `expires`; a stored timestamp is used directly, a string is
given to `float` and then to `parsedate_to_datetime`; an unparseable
value keeps the cookie. -/
def expiredReq (pf pd : Str → Option Int) (now : Int) (ps : Params) : Bool :=
  let exp := paramsGet ps (strL "expires")
  if truthyPVal exp then
    match exp with
    | some (.pnum t) => decide (now > t)
    | some (.pstr v) =>
      match (match pf v with | some t => some t | none => pd v) with
      | some t => decide (now > t)
      | none => false
    | none => false
  else false

/-- `params.get('samesite', '').lower() == 'lax'` (line 250).  A
non-string `samesite` value would raise `AttributeError` in Python; the
theorems below restrict to string-valued `samesite` params. -/
def samesiteLax (ps : Params) : Bool :=
  match paramsGet ps (strL "samesite") with
  | some (.pstr v) => decide (lowerStr v = strL "lax")
  | _ => false

/-- `f"{name}={value}"`. -/
def fmtCookie (name value : Str) : Str := name ++ ['='] ++ value

/-- A `samesite` param value, if present, is a string.  Python calls
`.lower()` on it, so a (never actually stored) numeric value would raise
`AttributeError`; theorems about the cookie-send path assume this. -/
def ssWfB (ps : Params) : Bool :=
  match paramsGet ps (strL "samesite") with
  | some (.pnum _) => false
  | _ => true

/-- The cookie loop of `URL.request` (lines 232-253): returns the
collected `cookies` entries and the collected `remove_names`, in order. -/
def cookieSendLoop (pf pd : Str → Option Int) (now : Int) (isPost cross : Bool) :
    JarO → List Str × List Str
  | [] => ([], [])
  | (name, (value, ps)) :: rest =>
    let tail := cookieSendLoop pf pd now isPost cross rest
    if expiredReq pf pd now ps then (tail.1, name :: tail.2)
    else if samesiteLax ps && isPost && cross then tail
    else (fmtCookie name value :: tail.1, tail.2)

/-- `for n in remove_names: jar.pop(n, None)` (lines 255-256). -/
def popNames (jar : JarO) (names : List Str) : JarO :=
  jar.filter (fun e => decide (e.1 ∉ names))

/-- `ref_origin` / `cross_site` computation of `URL.request`
(lines 224-230): an absent or falsy referrer, or one `URL` cannot parse,
is not cross-site. -/
def crossSiteOf (referrer : Option Str) (jarKey : Str) : Bool :=
  match referrer with
  | none => false
  | some r =>
    if r = [] then false
    else
      match parseURL r with
      | some u2 => decide (originStr u2 ≠ jarKey)
      | none => false

/-- The cookie-header portion of `URL.request` (lines 218-258): given the
request's URL, referrer and payload and the origin's jar, produce the
optional `Cookie` header value and the updated jar.  The method is POST
exactly when a payload is present (lines 209, 223). -/
def requestCookieHeader (pf pd : Str → Option Int) (now : Int) (url : URLm)
    (referrer : Option Str) (payload : Option Str) (jar : JarO) :
    Option Str × JarO :=
  let jarKey := originStr url
  let isPost := payload.isSome
  let cross := crossSiteOf referrer jarKey
  let cr := cookieSendLoop pf pd now isPost cross jar
  (if cr.1 ≠ [] then some (interc (strL "; ") cr.1) else none, popNames jar cr.2)

/-- `"POST" if payload is not None else "GET"` (line 209). -/
def requestMethod (payload : Option Str) : Str :=
  if payload.isSome then strL "POST" else strL "GET"

/-- `any(k.lower() == 'httponly' for k in params)` (lines 1953, 2021). -/
def hasHttpOnly (ps : Params) : Bool :=
  ps.any (fun kv => decide (lowerStr kv.1 = strL "httponly"))

/-- The expiry test of `JSContext.get_cookie` (lines 1956-1970): a stored
timestamp is used directly, a string goes to `parsedate_to_datetime`
only (no `float` attempt here, unlike `URL.request`). -/
def expiredRead (pd : Str → Option Int) (now : Int) (ps : Params) : Bool :=
  let exp := paramsGet ps (strL "expires")
  if truthyPVal exp then
    match exp with
    | some (.pnum t) => decide (now > t)
    | some (.pstr v) =>
      match pd v with
      | some t => decide (now > t)
      | none => false
    | none => false
  else false

/-- Rendering of a param value by `f"{k}={v}"`; a numeric timestamp
prints as Python prints the float (the fractional part of real
timestamps is not modelled). -/
def pvalToStr : PVal → Str
  | .pstr v => v
  | .pnum t => intReprL t ++ strL ".0"

/-- `v == ""` on a param value. -/
def pvalIsEmptyStr : PVal → Bool
  | .pstr [] => true
  | _ => false

/-- The per-cookie string of `JSContext.get_cookie` (lines 1971-1981):
`name=value` followed by the params, skipping `httponly` keys. -/
def fmtCookieFull (name value : Str) (ps : Params) : Str :=
  interc (strL "; ")
    (fmtCookie name value ::
      ps.filterMap (fun kv =>
        if lowerStr kv.1 = strL "httponly" then none
        else if pvalIsEmptyStr kv.2 then some kv.1
        else some (kv.1 ++ ['='] ++ pvalToStr kv.2)))

/-- The loop of `JSContext.get_cookie` (lines 1950-1981): HttpOnly
cookies are skipped before the expiry check, so they are never emitted
(and never removed). -/
def getCookieLoop (pd : Str → Option Int) (now : Int) :
    JarO → List Str × List Str
  | [] => ([], [])
  | (name, (value, ps)) :: rest =>
    let tail := getCookieLoop pd now rest
    if hasHttpOnly ps then tail
    else if expiredRead pd now ps then (tail.1, name :: tail.2)
    else (fmtCookieFull name value ps :: tail.1, tail.2)

/-- Models `JSContext.get_cookie` (lines 1935-1985) restricted to the
origin's jar: the returned `document.cookie` string and the jar after
expired-cookie removal. -/
def get_cookie (pd : Str → Option Int) (now : Int) (jar : JarO) : Str × JarO :=
  let cr := getCookieLoop pd now jar
  (interc (strL "; ") cr.1, popNames jar cr.2)

/-- The front half of `JSContext.set_cookie` (lines 2000-2019): strip,
split on `;`, parse `name=value` and the params dict.  `none` models the
early `return`s. -/
def parsedSetCookie (s : Str) : Option (Str × Str × Params) :=
  let cs := pyStrip s
  if cs = [] then none
  else
    match (splitAllChar ';' cs).map pyStrip with
    | [] => none
    | first :: rest =>
      match splitFirstChar '=' first with
      | none => none
      | some (name, val) =>
        let ps := rest.foldl (fun acc part =>
          if part = [] then acc
          else
            match splitFirstChar '=' part with
            | some (k, v) => dictInsert (lowerStr k) (.pstr v) acc
            | none => dictInsert (lowerStr part) (.pstr []) acc) []
        some (name, val, ps)

/-- Models `JSContext.set_cookie` (lines 1987-2033) on the origin's jar:
HttpOnly attributes cause a silent ignore; a truthy parseable `Expires`
string is replaced by its timestamp; the cookie is stored with
`COOKIE_JAR.setdefault(origin, {})[name] = (val, params)`. -/
def set_cookie (pd : Str → Option Int) (jar : JarO) (cookie_str : Str) : JarO :=
  match parsedSetCookie cookie_str with
  | none => jar
  | some (name, val, ps) =>
    if hasHttpOnly ps then jar
    else
      let exp := paramsGet ps (strL "expires")
      let ps2 :=
        if truthyPVal exp then
          match exp with
          | some (.pstr v) =>
            match pd v with
            | some t => dictInsert (strL "expires") (.pnum t) ps
            | none => ps
          | _ => ps
        else ps
      dictInsert name (val, ps2) jar

/-! ## `JSContext` asynchronous dispatch and the discarded flag -/

/-- The slice of `JSContext` state the staleness check reads. -/
structure JSCtxM where
  discarded : Bool

/-- A call into `interp.evaljs`, the observable effect of a dispatched
asynchronous callback. -/
inductive EvalCall where
  | timeoutJs (handle : Int)
  | xhrOnloadJs (body : Str) (handle : Int)
deriving DecidableEq, Repr

/-- Models `JSContext.dispatch_settimeout` (lines 2051-2063): the
returned value is the `evaljs` call performed, `none` when the context
is discarded and the callback is dropped. -/
def dispatch_settimeout (ctx : JSCtxM) (handle : Int) : Option EvalCall :=
  if ctx.discarded then none else some (.timeoutJs handle)

/-- Models `JSContext.dispatch_xhr_onload` (lines 1916-1932). -/
def dispatch_xhr_onload (ctx : JSCtxM) (body : Str) (handle : Int) : Option EvalCall :=
  if ctx.discarded then none else some (.xhrOnloadJs body handle)

/-- Models the discard in `Tab.load` (lines 2268-2272):
`self.js.discarded = True` on the old context. -/
def load_mark_discarded (ctx : JSCtxM) : JSCtxM := { ctx with discarded := true }

/-! ## `Tab` history navigation -/

/-- One history entry `{"url": ..., "method": ..., "body": ...}`. -/
structure HistEntry where
  url : Str
  method : Str
  body : Option Str
deriving DecidableEq, Repr

/-- The history slice of `Tab` state. -/
structure TabH where
  history : List HistEntry
  history_index : Int
deriving DecidableEq, Repr

/-- The network request issued by `Tab.load`: the url and the payload
handed to `url.request` (line 2216). -/
structure FetchCall where
  url : Str
  payload : Option Str
deriving DecidableEq, Repr

/-- `self.history[i]` for the indices reachable from the guarded
navigation methods (all nonnegative and in range; Python's negative
indexing is unreachable there). -/
def entryAt (t : TabH) (i : Int) : Option HistEntry :=
  if 0 ≤ i ∧ i < t.history.length then t.history.get? i.toNat else none

/-- Models `Tab._restore_history_entry` (lines 2191-2194): re-load the
entry's url with `payload=None`. -/
def restore_history_entry (t : TabH) : Option FetchCall :=
  (entryAt t t.history_index).map (fun e => ⟨e.url, none⟩)

/-- Models `Tab.go_back` (lines 2153-2156). -/
def go_back (t : TabH) : TabH × Option FetchCall :=
  if t.history_index > 0 then
    let t2 := { t with history_index := t.history_index - 1 }
    (t2, restore_history_entry t2)
  else (t, none)

/-- Models `Tab.go_forward` (lines 2158-2161). -/
def go_forward (t : TabH) : TabH × Option FetchCall :=
  if t.history_index + 1 < t.history.length then
    let t2 := { t with history_index := t.history_index + 1 }
    (t2, restore_history_entry t2)
  else (t, none)

/-- Models `Tab.reload` (lines 2163-2167): re-fetch the current entry's
url with `payload=None`. -/
def reloadTab (t : TabH) : Option FetchCall :=
  if 0 ≤ t.history_index ∧ t.history_index < t.history.length then
    (entryAt t t.history_index).map (fun e => ⟨e.url, none⟩)
  else none

/-- Models `Tab.navigate` (lines 2145-2151): trim forward history,
append the entry, and load with the body only for POST. -/
def navigateTab (t : TabH) (url : Str) (method : Str) (body : Option Str) :
    TabH × FetchCall :=
  let hist :=
    if t.history_index + 1 < t.history.length
    then t.history.take (t.history_index + 1).toNat
    else t.history
  (⟨hist ++ [⟨url, method, body⟩], t.history_index + 1⟩,
   ⟨url, if method = strL "POST" then body else none⟩)

/-! ## Inline layout: `BlockLayout.recurse`, `word`, `input`, `flush`

The font backend is external (§6 of the spec): `get_font` is a parameter
producing a font with a `measure` function and integer metrics.
`float(node.style["font-size"][:-2])` is modelled through a parameter
`pf : Str → Option ℚ` (`none` models the `ValueError`). -/

/-- A font object: `measure` and the `ascent`/`descent`/`linespace`
metrics. -/
structure FontI where
  measure : Str → Int
  ascent : Int
  descent : Int
  linespace : Int

/-- The four style-dict entries `BlockLayout.word` reads. -/
structure NodeStyle where
  fontWeight : Str
  fontStyle : Str
  fontSize : Str
  color : Str

/-- An `input`/`button` element as `BlockLayout.input` sees it: its tag,
attribute dict, `is_focused` flag and children, plus the style-dict
entries the method reads (`font-weight`, `font-style`, `font-size`,
`color`, and, via `.get` with their defaults, `background-color` and
`border-radius`). -/
structure WidgetNode where
  tag : Str
  attributes : List (Str × Str)
  fontWeight : Str
  fontStyle : Str
  fontSize : Str
  color : Str
  backgroundColor : Str
  borderRadius : Str
  isFocused : Bool
  children : List DNode

/-- A buffered line entry `("text", cursor_x, word, font, color)`. -/
structure LineItem where
  relx : Int
  word : Str
  font : FontI
  color : Str

/-- A display-list entry: `("text_abs", (x, y), word, font, color)`,
`("rect", rect, color)`, `("outline", rect, color, thickness)`,
`("line", (x1, y1, x2, y2, color, thickness))`, or
`("rrect", rect, color, radius)`. -/
inductive DispItem where
  | textAbs (x y : Int) (word : Str) (font : FontI) (color : Str)
  | rectFill (x1 y1 x2 y2 : Int) (color : Str)
  | outlineBox (x1 y1 x2 y2 : Int) (color : Str) (thickness : Int)
  | lineSeg (x1 y1 x2 y2 : Int) (color : Str) (thickness : Int)
  | rrectFill (x1 y1 x2 y2 : Int) (color : Str) (radius : ℚ)

/-- The layout state of one inline-mode `BlockLayout`. -/
structure LayoutSt where
  x : Int
  y : Int
  width : Int
  cursor_x : Int
  cursor_y : Int
  line : List LineItem
  display_list : List DispItem

/-- Truncation toward zero, Python `int()` on a (rational-modelled)
float. -/
def intTruncQ (q : ℚ) : Int := q.num / (q.den : Int)

/-- The font computation shared by `word` (lines 868-874) and `input`
(lines 887-892): weight and style from the node's style,
`size = int(float(fs[:-2]) * .75)`. -/
def computeFont (ff : Int → Str → Str → FontI) (pf : Str → Option ℚ)
    (node : NodeStyle) : Option FontI :=
  let weight := node.fontWeight
  let style := if node.fontStyle = strL "normal" then strL "roman" else node.fontStyle
  match pf (node.fontSize.dropLast.dropLast) with
  | none => none
  | some q => some (ff (intTruncQ (q * (3 / 4 : ℚ))) weight style)

/-- Models `BlockLayout.flush` (lines 954-966). -/
def flushOp (st : LayoutSt) : LayoutSt :=
  match st.line with
  | [] => st
  | it0 :: restItems =>
    let maxAscent := (restItems.map (fun it => it.font.ascent)).foldl max it0.font.ascent
    let maxDescent := (restItems.map (fun it => it.font.descent)).foldl max it0.font.descent
    let baseline := st.cursor_y + maxAscent
    let newItems := (it0 :: restItems).map (fun it =>
      DispItem.textAbs (st.x + it.relx) (st.y + baseline - it.font.ascent)
        it.word it.font it.color)
    { st with
      display_list := st.display_list ++ newItems,
      cursor_y := baseline + (5 * maxDescent) / 4,
      cursor_x := 0,
      line := [] }

/-- Models `BlockLayout.word` (lines 868-879). -/
def wordOp (ff : Int → Str → Str → FontI) (pf : Str → Option ℚ)
    (node : NodeStyle) (w : Str) (st : LayoutSt) : Option LayoutSt :=
  match computeFont ff pf node with
  | none => none
  | some font =>
    let wpx := font.measure w
    let st := if st.cursor_x + wpx > st.width then flushOp st else st
    some { st with
      line := st.line ++ [⟨st.cursor_x, w, font, node.color⟩],
      cursor_x := st.cursor_x + wpx + font.measure (strL " ") }

/-- `INPUT_WIDTH_PX` (line 674). -/
def INPUT_WIDTH_PX : Int := 200

/-- `CHECKBOX_SIZE` (line 675). -/
def CHECKBOX_SIZE : Int := 16

/-- `dict.get(k, default)`. -/
def dictGetD {α : Type} (k : Str) (dflt : α) (l : List (Str × α)) : α :=
  (dictGet k l).getD dflt

/-- `BlockLayout.button_label` (lines 950-952): the text of the single
`Text` child, else the empty string. -/
def button_label (node : WidgetNode) : Str :=
  match node.children with
  | [DNode.text _ _ s] => s
  | _ => []

/-- `_px_from_length` (lines 722-741): convert a CSS length to pixels;
`float` is the `pf` parameter, and `none` models the
`NotImplementedError` raised when parsing fails. -/
def pxFromLength (pf : Str → Option ℚ) (value : Str)
    (x1 y1 x2 y2 : Int) : Option ℚ :=
  let v := pyStrip value
  if (strL "px").isSuffixOf v then pf v.dropLast.dropLast
  else if (strL "%").isSuffixOf v then
    (pf v.dropLast).map (fun q =>
      (((x2 - x1).natAbs : ℚ) + ((y2 - y1).natAbs : ℚ)) * (1 / 2 : ℚ) * q / 100)
  else if v = [] ∨ v = strL "0" then some 0
  else pf v

/-- Models `BlockLayout.input` (lines 881-947): a hidden input consumes
nothing; otherwise the widget width is `CHECKBOX_SIZE`, `INPUT_WIDTH_PX`
or `max(80, measure(button_label) + 20)` by type, a flush happens first
when `cursor_x + w > width`, the box/text primitives are appended to the
display list, and `cursor_x += w + font.measure(" ")` WITHOUT appending
to `self.line`.  `Browser._register_widget_box` only records the rect in
the chrome's hit-testing state (out of scope per §1 of the spec) and is
not part of the layout state. -/
def inputOp (ff : Int → Str → Str → FontI) (pf : Str → Option ℚ)
    (node : WidgetNode) (st : LayoutSt) : Option LayoutSt :=
  let itype := lowerStr (dictGetD (strL "type") (strL "text") node.attributes)
  if itype = strL "hidden" then some st
  else
    match computeFont ff pf ⟨node.fontWeight, node.fontStyle, node.fontSize, node.color⟩ with
    | none => none
    | some font =>
      let is_checkbox := itype = strL "checkbox"
      let wpx : Int :=
        if is_checkbox then CHECKBOX_SIZE
        else if node.tag = strL "input" then INPUT_WIDTH_PX
        else max 80 (font.measure (button_label node) + 20)
      let st := if st.cursor_x + wpx > st.width then flushOp st else st
      let baseline := st.cursor_y + font.ascent
      let x := st.x + st.cursor_x
      let y_top := st.y + baseline - font.ascent
      let y_bottom := y_top + (if is_checkbox then CHECKBOX_SIZE else font.linespace)
      let advance := fun (items : List DispItem) =>
        some { st with
          display_list := st.display_list ++ items,
          cursor_x := st.cursor_x + wpx + font.measure (strL " ") }
      if is_checkbox then
        let checked := (dictGet (strL "checked") node.attributes).isSome ||
          decide (dictGet (strL "_checked_state") node.attributes = some (strL "true"))
        advance
          ([DispItem.rectFill x y_top (x + wpx) y_bottom (strL "#e6f2ff"),
            DispItem.outlineBox x y_top (x + wpx) y_bottom (strL "black") 1] ++
           (if checked then
              [DispItem.lineSeg (x + 3) (y_top + 3) (x + wpx - 3) (y_bottom - 3) (strL "black") 2,
               DispItem.lineSeg (x + wpx - 3) (y_top + 3) (x + 3) (y_bottom - 3) (strL "black") 2]
            else []))
      else
        let bgcolor := node.backgroundColor
        let bgItems : Option (List DispItem) :=
          if bgcolor = strL "transparent" then some []
          else
            match pxFromLength pf node.borderRadius x y_top (x + wpx) y_bottom with
            | none => none
            | some radius => some [DispItem.rrectFill x y_top (x + wpx) y_bottom bgcolor radius]
        match bgItems with
        | none => none
        | some bg =>
          let text :=
            if node.tag = strL "input" then
              let raw := dictGetD (strL "value") [] node.attributes
              if itype = strL "password" then List.replicate raw.length '•' else raw
            else button_label node
          let caret :=
            if node.isFocused && decide (node.tag = strL "input") then
              let cx := x + font.measure text
              [DispItem.lineSeg cx y_top cx y_bottom (strL "black") 1]
            else []
          advance (bg ++ [DispItem.textAbs x y_top text font node.color] ++ caret)

/-- One step of the `recurse` traversal (lines 854-866): a word of a
`Text` node, an `input`/`button` element, or a `br` (which flushes). -/
inductive InlineItem where
  | wordI (node : NodeStyle) (w : Str)
  | widgetI (node : WidgetNode)
  | brI

/-- The inline-item sequence of an inline layout (the `recurse`
traversal flattened: words of `Text` nodes, `input`/`button` widgets and
`br` flushes, in DFS order) followed by the final `self.flush()` of
`BlockLayout.layout` (line 820). -/
def layoutItems (ff : Int → Str → Str → FontI) (pf : Str → Option ℚ) :
    List InlineItem → LayoutSt → Option LayoutSt
  | [], st => some (flushOp st)
  | InlineItem.wordI n w :: rest, st => (wordOp ff pf n w st).bind (layoutItems ff pf rest)
  | InlineItem.widgetI n :: rest, st => (inputOp ff pf n st).bind (layoutItems ff pf rest)
  | InlineItem.brI :: rest, st => layoutItems ff pf rest (flushOp st)

/-- The initial state of an inline-mode layout (lines 805-819):
`cursor_x = cursor_y = 0`, empty line and display list. -/
def initLayout (x y width : Int) : LayoutSt :=
  ⟨x, y, width, 0, 0, [], []⟩

/-- A concrete font backend for counterexamples/witnesses: every glyph
is ten pixels wide, ascent 12, descent 4, linespace 16. -/
def ffTen : Int → Str → Str → FontI :=
  fun _ _ _ => ⟨fun s => 10 * (s.length : Int), 12, 4, 16⟩

/-- A concrete `float` parser knowing only `"16"`, enough for a
`font-size: 16px` style. -/
def pfSixteen : Str → Option ℚ :=
  fun s => if s = strL "16" then some (16 : ℚ) else none

/-- A node style with default font properties and `font-size: 16px`. -/
def nodePlain : NodeStyle :=
  ⟨strL "normal", strL "normal", strL "16px", strL "black"⟩

/-- A plain, unfocused `<input>` with no attributes: `type` defaults to
`text`, `value` to the empty string, the background is transparent. -/
def wInput : WidgetNode :=
  ⟨strL "input", [], strL "normal", strL "normal", strL "16px",
   strL "black", strL "transparent", strL "0px", false, []⟩

/-- A sixty-character word; `ffTen` measures it at 600 pixels. -/
def word60 : Str :=
  strL "aaaaaaaaaaaaaaaaaaaaaaaaaaaaaaaaaaaaaaaaaaaaaaaaaaaaaaaaaaaa"

/-- The tree `HTMLParser("Hello<p>World").parse()` actually returns:
`html → body → [Text "Hello", p → Text "World"]`, with no `head`. -/
def c1Tree : DNode :=
  .elem 0 none (strL "html") []
    [.elem 1 (some 0) (strL "body") []
      [.text 2 (some 1) (strL "Hello"),
       .elem 3 (some 1) (strL "p") [] [.text 4 (some 3) (strL "World")]]]

/-! ## Theorems -/

/-- Claim C1, counterexample: `HTMLParser.parse("Hello<p>World")` does
NOT create an empty `head` element.  Because the first token is text
(`implicit_tags(None)`), `None` is not in `HEAD_TAGS`, so `add_tag("body")`
runs and no `head` is ever inserted: no node of the resulting tree has
tag `head`. -/
theorem claim_C1_counterexample :
    parse (strL "Hello<p>World") = some c1Tree ∧
    ∀ n ∈ nodesOf c1Tree, tagOf n ≠ some (strL "head") := by
  constructor
  · rfl
  · intro n hn
    simp only [c1Tree, nodesOf, nodesForest, List.mem_cons, List.mem_append,
      List.not_mem_nil, or_false] at hn
    rcases hn with h | h | h | h | h <;> subst h <;> decide

/-- Claim C1, amended: `HTMLParser.parse("Hello<p>World")` returns the
tree `html → body → [Text "Hello", p → Text "World"]`; since the first
token is text and text is not in the HEAD set, implicit tag insertion
creates `body` directly under `html` and no `head` element at all. -/
theorem claim_C1_amended : parse (strL "Hello<p>World") = some c1Tree := rfl

/-- Claim C5: a discarded `JSContext` never runs a stale asynchronous
callback: when `discarded` is true, `dispatch_settimeout` and
`dispatch_xhr_onload` return without any `evaljs` call; and `Tab.load`
marks the old context discarded. -/
theorem claim_C5 (ctx : JSCtxM) (handle : Int) (body : Str)
    (h : ctx.discarded = true) :
    dispatch_settimeout ctx handle = none ∧
    dispatch_xhr_onload ctx body handle = none ∧
    ∀ ctx2 : JSCtxM, (load_mark_discarded ctx2).discarded = true := by
  refine ⟨?_, ?_, fun _ => rfl⟩ <;> simp [dispatch_settimeout, dispatch_xhr_onload, h]

/-- Witness for C5 at a concrete discarded context. -/
theorem claim_C5_witness :
    dispatch_settimeout ⟨true⟩ 7 = none ∧
    dispatch_xhr_onload ⟨true⟩ (strL "resp") 7 = none ∧
    ∀ ctx2 : JSCtxM, (load_mark_discarded ctx2).discarded = true :=
  claim_C5 ⟨true⟩ 7 (strL "resp") rfl

/-- `pyStrip` of a string with no whitespace characters is itself. -/
theorem pyStrip_id (s : Str) (h : ∀ c ∈ s, isPySpace c = false) :
    pyStrip s = s := by
  have hdrop : ∀ (l : Str), (∀ c ∈ l, isPySpace c = false) → l.dropWhile isPySpace = l := by
    intro l hl
    cases l with
    | nil => rfl
    | cons c cs => simp [List.dropWhile, hl c (List.mem_cons_self c cs)]
  unfold pyStrip
  rw [hdrop s h, hdrop s.reverse (fun c hc => h c (List.mem_reverse.mp hc)),
    List.reverse_reverse]

/-- Splitting on an absent separator yields the single whole field. -/
theorem splitAllChar_no_sep (c : Char) (s : Str) (h : ∀ x ∈ s, x ≠ c) :
    splitAllChar c s = [s] := by
  induction s with
  | nil => rfl
  | cons x xs ih =>
    have hx : x ≠ c := h x (List.mem_cons_self x xs)
    have ihr := ih (fun y hy => h y (List.mem_cons_of_mem x hy))
    simp [splitAllChar, hx, ihr]

/-- Splitting at the first occurrence of a separator that is absent from
the left part finds exactly that occurrence. -/
theorem splitFirstChar_append (c : Char) (left right : Str) (h : c ∉ left) :
    splitFirstChar c (left ++ c :: right) = some (left, right) := by
  induction left with
  | nil => simp [splitFirstChar]
  | cons x xs ih =>
    have hx : x ≠ c := fun hxc => h (hxc ▸ List.mem_cons_self x xs)
    have ihr := ih (fun hmem => h (List.mem_cons_of_mem x hmem))
    simp [splitFirstChar, hx, ihr]

/-- A digit character below ten is an ASCII digit. -/
theorem digitChar_isDigit (d : Nat) (h : d < 10) : (digitChar d).isDigit = true := by
  interval_cases d <;> decide

/-- Reading back the digit character gives the digit. -/
theorem digVal_digitChar (d : Nat) (h : d < 10) : digVal (digitChar d) = d := by
  interval_cases d <;> decide

/-- The digit-writer fuel never matters once it exceeds the input. -/
theorem natReprAux_congr : ∀ f1 f2 n, n < f1 → n < f2 →
    natReprAux f1 n = natReprAux f2 n := by
  intro f1
  induction f1 with
  | zero => intro f2 n h1 _; omega
  | succ f ih =>
    intro f2 n h1 h2
    cases f2 with
    | zero => omega
    | succ g =>
      by_cases hn : n < 10
      · simp [natReprAux, hn]
      · have hd : n / 10 < n := Nat.div_lt_self (by omega) (by omega)
        simp only [natReprAux, if_neg hn]
        rw [ih g (n / 10) (by omega) (by omega)]

/-- The defining recurrence of `natReprL`. -/
theorem natReprL_eq (n : Nat) : natReprL n =
    if n < 10 then [digitChar n] else natReprL (n / 10) ++ [digitChar (n % 10)] := by
  by_cases hn : n < 10
  · simp [natReprL, natReprAux, hn]
  · have hd : n / 10 < n := Nat.div_lt_self (by omega) (by omega)
    rw [if_neg hn]
    show natReprAux (n + 1) n = natReprAux (n / 10 + 1) (n / 10) ++ [digitChar (n % 10)]
    rw [show natReprAux (n + 1) n =
      if n < 10 then [digitChar n]
      else natReprAux n (n / 10) ++ [digitChar (n % 10)] from rfl]
    rw [if_neg hn, natReprAux_congr n (n / 10 + 1) (n / 10) (by omega) (by omega)]

/-- Decimal representations are never empty. -/
theorem natReprL_ne_nil (n : Nat) : natReprL n ≠ [] := by
  rw [natReprL_eq]
  split <;> simp

/-- Every character of a decimal representation is a digit. -/
theorem natReprL_digits : ∀ n c, c ∈ natReprL n → c.isDigit = true := by
  intro n
  induction n using Nat.strong_induction_on with
  | _ n ih =>
    intro c hc
    rw [natReprL_eq] at hc
    by_cases hn : n < 10
    · rw [if_pos hn] at hc
      rcases List.mem_singleton.mp hc with rfl
      exact digitChar_isDigit n hn
    · rw [if_neg hn] at hc
      rcases List.mem_append.mp hc with h | h
      · exact ih (n / 10) (Nat.div_lt_self (by omega) (by omega)) c h
      · rcases List.mem_singleton.mp h with rfl
        exact digitChar_isDigit _ (Nat.mod_lt _ (by omega))

/-- Folding the decimal digits back recovers the number. -/
theorem natReprL_val : ∀ n,
    (natReprL n).foldl (fun a c => a * 10 + digVal c) 0 = n := by
  intro n
  induction n using Nat.strong_induction_on with
  | _ n ih =>
    rw [natReprL_eq]
    by_cases hn : n < 10
    · simp [hn, digVal_digitChar n hn]
    · rw [if_neg hn, List.foldl_append]
      rw [ih (n / 10) (Nat.div_lt_self (by omega) (by omega))]
      simp only [List.foldl_cons, List.foldl_nil]
      rw [digVal_digitChar _ (Nat.mod_lt _ (by omega))]
      omega

/-- The digit scanner on an all-digit tail folds it into the accumulator. -/
theorem digitsGo_digits : ∀ (l : Str) (acc : Nat),
    (∀ c ∈ l, c.isDigit = true) →
    digitsGo acc l = some (l.foldl (fun a c => a * 10 + digVal c) acc) := by
  intro l
  induction l with
  | nil => intro acc _; rfl
  | cons c restl ihl =>
    intro acc hall
    have hcd := hall c (List.mem_cons_self _ _)
    have hcne : c ≠ '_' := by
      intro he
      subst he
      exact absurd hcd (by decide)
    have hstep : ∀ (rest2 : Str) (acc2 : Nat),
        digitsGo acc2 (c :: rest2) = digitsGo (acc2 * 10 + digVal c) rest2 := by
      intro rest2 acc2
      cases rest2 <;> simp [digitsGo, hcne, hcd]
    rw [List.foldl_cons, hstep]
    exact ihl _ (fun x hx => hall x (List.mem_cons_of_mem _ hx))

/-- Parsing the decimal representation of a natural gives it back. -/
theorem digitsVal_repr (n : Nat) : digitsVal (natReprL n) = some n := by
  cases heq : natReprL n with
  | nil => exact absurd heq (natReprL_ne_nil n)
  | cons c rest =>
    have hcd : c.isDigit = true := natReprL_digits n c (heq ▸ List.mem_cons_self _ _)
    have hrest : ∀ x ∈ rest, x.isDigit = true := fun x hx =>
      natReprL_digits n x (heq ▸ List.mem_cons_of_mem _ hx)
    simp only [digitsVal, hcd, if_pos]
    rw [digitsGo_digits rest (digVal c) hrest]
    have : rest.foldl (fun a c => a * 10 + digVal c) (digVal c) =
        (c :: rest).foldl (fun a c => a * 10 + digVal c) 0 := by
      simp [List.foldl_cons]
    rw [this, ← heq, natReprL_val n]

/-- Digits are not Python whitespace. -/
theorem isPySpace_of_isDigit (c : Char) (h : c.isDigit = true) :
    isPySpace c = false := by
  cases hsp : isPySpace c
  · rfl
  · exfalso
    simp only [isPySpace, decide_eq_true_eq] at hsp
    rcases hsp with h1 | h1 | h1 | h1 | h1 | h1 <;> subst h1 <;>
      exact absurd h (by decide)

/-- Every character of `str(i)` is a minus sign or a digit. -/
theorem intReprL_chars (i : Int) : ∀ c ∈ intReprL i, c = '-' ∨ c.isDigit = true := by
  intro c hc
  unfold intReprL at hc
  split at hc
  · rcases List.mem_cons.mp hc with rfl | h
    · exact Or.inl rfl
    · exact Or.inr (natReprL_digits _ c h)
  · exact Or.inr (natReprL_digits _ c hc)

/-- Models `int(str(i)) == i`: parsing the printed integer recovers it. -/
theorem pyIntParse_intRepr (i : Int) : pyIntParse (intReprL i) = some i := by
  have hstrip : pyStrip (intReprL i) = intReprL i := by
    apply pyStrip_id
    intro c hc
    rcases intReprL_chars i c hc with rfl | hd
    · decide
    · exact isPySpace_of_isDigit c hd
  unfold pyIntParse
  rw [hstrip]
  by_cases hi : i < 0
  · have hrep : intReprL i = '-' :: natReprL i.natAbs := by simp [intReprL, hi]
    rw [hrep]
    show (if ('-' : Char) = '+' then (digitsVal (natReprL i.natAbs)).map Int.ofNat
      else if ('-' : Char) = '-' then
        (digitsVal (natReprL i.natAbs)).map (fun n => -Int.ofNat n)
      else (digitsVal ('-' :: natReprL i.natAbs)).map Int.ofNat) = some i
    rw [if_neg (by decide), if_pos rfl, digitsVal_repr]
    rw [show (some i.natAbs).map (fun n => -Int.ofNat n) =
      some (-Int.ofNat i.natAbs) from rfl]
    congr 1
    simp only [Int.ofNat_eq_natCast]
    omega
  · have hrep : intReprL i = natReprL i.toNat := by simp [intReprL, hi]
    rw [hrep]
    cases heq : natReprL i.toNat with
    | nil => exact absurd heq (natReprL_ne_nil _)
    | cons c rest =>
      have hcd : c.isDigit = true :=
        natReprL_digits _ c (heq ▸ List.mem_cons_self _ _)
      have h1 : c ≠ '+' := by
        intro he; subst he; exact absurd hcd (by decide)
      have h2 : c ≠ '-' := by
        intro he; subst he; exact absurd hcd (by decide)
      show (if c = '+' then (digitsVal rest).map Int.ofNat
        else if c = '-' then (digitsVal rest).map (fun n => -Int.ofNat n)
        else (digitsVal (c :: rest)).map Int.ofNat) = some i
      rw [if_neg h1, if_neg h2, ← heq, digitsVal_repr]
      rw [show (some i.toNat).map Int.ofNat = some (Int.ofNat i.toNat) from rfl]
      congr 1
      simp only [Int.ofNat_eq_natCast]
      omega

/-- Characterization of a successful one-character split: the separator
is absent from the left part and the parts reassemble the input. -/
theorem splitFirstChar_some (c : Char) : ∀ (s l r : Str),
    splitFirstChar c s = some (l, r) → s = l ++ c :: r ∧ c ∉ l := by
  intro s
  induction s with
  | nil => intro l r h; exact absurd h (by simp [splitFirstChar])
  | cons x xs ih =>
    intro l r h
    by_cases hx : x = c
    · subst hx
      simp only [splitFirstChar, if_pos, Option.some_inj, Prod.mk.injEq] at h
      obtain ⟨hl, hr⟩ := h
      subst hl
      subst hr
      exact ⟨rfl, List.not_mem_nil _⟩
    · simp only [splitFirstChar, if_neg hx] at h
      cases hr : splitFirstChar c xs with
      | none => rw [hr] at h; exact absurd h (by simp)
      | some lr =>
        obtain ⟨l2, r2⟩ := lr
        rw [hr] at h
        simp only [Option.some_inj, Prod.mk.injEq] at h
        obtain ⟨hl, hr2⟩ := h
        subst hl
        subst hr2
        have hih := ih l2 r2 hr
        constructor
        · rw [List.cons_append, hih.1]
        · intro hmem
          rcases List.mem_cons.mp hmem with he | hm
          · exact hx he.symm
          · exact hih.2 hm

/-- Splitting on a multi-character separator whose head is absent from
the left part finds the separator exactly after the left part. -/
theorem splitFirstStr_append (hc : Char) (sep2 left right : Str)
    (h : hc ∉ left) :
    splitFirstStr (hc :: sep2) (left ++ ((hc :: sep2) ++ right)) =
      some (left, right) := by
  induction left with
  | nil =>
    rw [List.nil_append]
    have hp : (hc :: sep2).isPrefixOf ((hc :: sep2) ++ right) = true :=
      List.isPrefixOf_iff_prefix.mpr (List.prefix_append _ _)
    rw [List.cons_append]
    simp only [splitFirstStr]
    rw [← List.cons_append, if_pos hp, List.drop_left]
  | cons x xs ih =>
    have hx : x ≠ hc := fun he => h (he ▸ List.mem_cons_self x xs)
    have hpre : (hc :: sep2).isPrefixOf (x :: (xs ++ ((hc :: sep2) ++ right))) = false := by
      simp only [List.isPrefixOf, Bool.and_eq_false_iff]
      exact Or.inl (by simp [Ne.symm hx])
    rw [List.cons_append]
    simp only [splitFirstStr, hpre, Bool.false_eq_true, if_false]
    rw [ih (fun hm => h (List.mem_cons_of_mem x hm))]

/-- Characterization of a `URL` accepted by the constructor: the scheme
is `http` or `https`, the host contains neither `:` nor `/`, and the
path starts with `/`. -/
theorem parseURL_wf (s : Str) (u : URLm) (h : parseURL s = some u) :
    (u.scheme = strL "http" ∨ u.scheme = strL "https") ∧
    ':' ∉ u.host ∧ '/' ∉ u.host ∧ ∃ p, u.path = '/' :: p := by
  unfold parseURL at h
  cases h1 : splitFirstStr (strL "://") s with
  | none =>
    simp only [h1] at h
    exact Option.noConfusion h
  | some sr =>
    obtain ⟨scheme, rest0⟩ := sr
    simp only [h1] at h
    by_cases hs : scheme = strL "http" ∨ scheme = strL "https"
    · rw [if_pos hs] at h
      cases h2 : splitFirstChar '/' (if '/' ∈ rest0 then rest0 else rest0 ++ ['/']) with
      | none =>
        simp only [h2] at h
        exact Option.noConfusion h
      | some hp2 =>
        obtain ⟨hostport, afterSlash⟩ := hp2
        simp only [h2] at h
        have hsl : '/' ∉ hostport := (splitFirstChar_some '/' _ _ _ h2).2
        by_cases hcol : ':' ∈ hostport
        · rw [if_pos hcol] at h
          cases h3 : splitFirstChar ':' hostport with
          | none =>
            simp only [h3] at h
            exact Option.noConfusion h
          | some hpp =>
            obtain ⟨host, portStr⟩ := hpp
            simp only [h3] at h
            have hchar := splitFirstChar_some ':' hostport host portStr h3
            cases h4 : pyIntParse portStr with
            | none =>
              simp only [h4] at h
              exact Option.noConfusion h
            | some p =>
              simp only [h4, Option.some_inj] at h
              subst h
              refine ⟨hs, hchar.2, ?_, afterSlash, rfl⟩
              intro hmem
              exact hsl (hchar.1 ▸ List.mem_append.mpr (Or.inl hmem))
        · rw [if_neg hcol] at h
          simp only [Option.some_inj] at h
          subst h
          exact ⟨hs, hcol, hsl, afterSlash, rfl⟩
    · rw [if_neg hs] at h
      exact absurd h (by simp)

/-- Claim C7: stringifying an accepted URL and re-parsing it preserves
the origin: for every `U` accepted by the URL constructor,
`origin(URL(str(U))) == origin(U)`. -/
theorem claim_C7 (s : Str) (u : URLm) (h : parseURL s = some u) :
    ∃ u2, parseURL (urlToString u) = some u2 ∧ originStr u2 = originStr u := by
  obtain ⟨hscheme, hhostc, hhosts, p, hpath⟩ := parseURL_wf s u h
  have hschc : ':' ∉ u.scheme := by
    rcases hscheme with h1 | h1 <;> rw [h1] <;> decide
  have hportch : ∀ c ∈ intReprL u.port, c ≠ '/' ∧ c ≠ ':' := by
    intro c hc
    rcases intReprL_chars u.port c hc with rfl | hd
    · exact ⟨by decide, by decide⟩
    · constructor <;> intro he <;> subst he <;> exact absurd hd (by decide)
  by_cases hshow : (u.scheme = strL "http" ∧ u.port ≠ 80) ∨
      (u.scheme = strL "https" ∧ u.port ≠ 443)
  · -- the port is printed
    have hurl : urlToString u =
        u.scheme ++ ((strL "://") ++ ((u.host ++ (':' :: intReprL u.port)) ++ ('/' :: p))) := by
      simp only [urlToString, if_pos hshow, hpath]
      simp [List.append_assoc]
    have hsplit1 : splitFirstStr (strL "://") (urlToString u) =
        some (u.scheme, (u.host ++ (':' :: intReprL u.port)) ++ ('/' :: p)) := by
      rw [hurl]
      exact splitFirstStr_append ':' (strL "//") u.scheme _ hschc
    have hmem : '/' ∈ (u.host ++ (':' :: intReprL u.port)) ++ ('/' :: p) :=
      List.mem_append.mpr (Or.inr (List.mem_cons_self _ _))
    have hnosl : '/' ∉ u.host ++ (':' :: intReprL u.port) := by
      intro hm
      rcases List.mem_append.mp hm with hm1 | hm1
      · exact hhosts hm1
      · rcases List.mem_cons.mp hm1 with he | hm2
        · exact absurd he.symm (by decide)
        · exact (hportch '/' hm2).1 rfl
    have hsplit2 : splitFirstChar '/' ((u.host ++ (':' :: intReprL u.port)) ++ ('/' :: p)) =
        some (u.host ++ (':' :: intReprL u.port), p) :=
      splitFirstChar_append '/' _ p hnosl
    have hcolmem : ':' ∈ u.host ++ (':' :: intReprL u.port) :=
      List.mem_append.mpr (Or.inr (List.mem_cons_self _ _))
    have hsplit3 : splitFirstChar ':' (u.host ++ (':' :: intReprL u.port)) =
        some (u.host, intReprL u.port) :=
      splitFirstChar_append ':' u.host _ hhostc
    refine ⟨⟨u.scheme, u.host, u.port, '/' :: p⟩, ?_, rfl⟩
    unfold parseURL
    simp only [hsplit1]
    rw [if_pos hscheme]
    rw [if_pos hmem]
    simp only [hsplit2]
    rw [if_pos hcolmem]
    simp only [hsplit3, pyIntParse_intRepr]
  · -- the default port is omitted
    have hurl : urlToString u =
        u.scheme ++ ((strL "://") ++ (u.host ++ ('/' :: p))) := by
      simp only [urlToString, if_neg hshow, hpath]
      simp [List.append_assoc]
    have hsplit1 : splitFirstStr (strL "://") (urlToString u) =
        some (u.scheme, u.host ++ ('/' :: p)) := by
      rw [hurl]
      exact splitFirstStr_append ':' (strL "//") u.scheme _ hschc
    have hmem : '/' ∈ u.host ++ ('/' :: p) :=
      List.mem_append.mpr (Or.inr (List.mem_cons_self _ _))
    have hsplit2 : splitFirstChar '/' (u.host ++ ('/' :: p)) = some (u.host, p) :=
      splitFirstChar_append '/' u.host p hhosts
    refine ⟨⟨u.scheme, u.host,
      (if u.scheme = strL "http" then (80 : Int) else 443), '/' :: p⟩, ?_, ?_⟩
    · unfold parseURL
      simp only [hsplit1]
      rw [if_pos hscheme]
      rw [if_pos hmem]
      simp only [hsplit2]
      rw [if_neg hhostc]
    · have hport : (if u.scheme = strL "http" then (80 : Int) else 443) = u.port := by
        push_neg at hshow
        rcases hscheme with h1 | h1
        · rw [if_pos h1]
          exact (hshow.1 h1).symm
        · have hne : u.scheme ≠ strL "http" := by rw [h1]; decide
          rw [if_neg hne]
          exact (hshow.2 h1).symm
      simp only [originStr, hport]

/-- Witness for C7 at `http://example.com:8080/a`. -/
theorem claim_C7_witness :
    ∃ u2, parseURL (urlToString ⟨strL "http", strL "example.com", 8080, strL "/a"⟩) =
        some u2 ∧
      originStr u2 = originStr ⟨strL "http", strL "example.com", 8080, strL "/a"⟩ :=
  claim_C7 (strL "http://example.com:8080/a")
    ⟨strL "http", strL "example.com", 8080, strL "/a"⟩ (by rfl)

/-- Invariant of the inline item loop over widget-free item lists: the
frame is preserved; every buffered line entry either fits
(`relx + width ≤ block width`) or sits at relative x 0; hence every
committed word whose measured width is at most the block width has its
right edge inside `x + width`.  The hypothesis `sline = [] → scx = 0`
holds throughout a widget-free run (`flush` resets `cursor_x` whenever
it commits a line, and a `br` flush leaves `cursor_x` at 0 on an empty
line) but is FALSE once an `input`/`button` widget appears: `input`
advances `cursor_x` without appending to `self.line`. -/
theorem layoutItems_inv (ff : Int → Str → Str → FontI) (pf : Str → Option ℚ)
    (items : List InlineItem) :
    ∀ (sx sy sw scx scy : Int) (sline : List LineItem) (sdl : List DispItem)
      (st' : LayoutSt),
    layoutItems ff pf items ⟨sx, sy, sw, scx, scy, sline, sdl⟩ = some st' →
    (∀ it ∈ items, ∀ n, it ≠ InlineItem.widgetI n) →
    (sline = [] → scx = 0) →
    (∀ it ∈ sline, it.relx + it.font.measure it.word ≤ sw ∨ it.relx = 0) →
    (∀ (dx dy : Int) (w : Str) (fnt : FontI) (col : Str),
      DispItem.textAbs dx dy w fnt col ∈ sdl →
      fnt.measure w ≤ sw → dx + fnt.measure w ≤ sx + sw) →
    st'.x = sx ∧ st'.width = sw ∧
    (∀ (dx dy : Int) (w : Str) (fnt : FontI) (col : Str),
      DispItem.textAbs dx dy w fnt col ∈ st'.display_list →
      fnt.measure w ≤ sw → dx + fnt.measure w ≤ sx + sw) := by
  induction items with
  | nil =>
    intro sx sy sw scx scy sline sdl st' hrun hW hcz hl hd
    cases sline with
    | nil =>
      simp only [layoutItems, flushOp, Option.some_inj] at hrun
      subst hrun
      exact ⟨rfl, rfl, hd⟩
    | cons it0 restI =>
      simp only [layoutItems, flushOp, Option.some_inj] at hrun
      subst hrun
      refine ⟨rfl, rfl, ?_⟩
      intro dx dy w fnt col hdm hwle
      rcases List.mem_append.mp hdm with hold | hnew
      · exact hd dx dy w fnt col hold hwle
      · obtain ⟨it, hit, hdeq⟩ := List.mem_map.mp hnew
        have hfit := hl it hit
        simp only [DispItem.textAbs.injEq] at hdeq
        obtain ⟨h1, h2, h3, h4, h5⟩ := hdeq
        subst h1; subst h3; subst h4
        omega
  | cons itm rest ih =>
    intro sx sy sw scx scy sline sdl st' hrun hW hcz hl hd
    have hWrest : ∀ it ∈ rest, ∀ n, it ≠ InlineItem.widgetI n :=
      fun it hit => hW it (List.mem_cons_of_mem _ hit)
    cases itm with
    | widgetI n => exact absurd rfl (hW _ (List.mem_cons_self _ _) n)
    | brI =>
      cases sline with
      | nil =>
        simp only [layoutItems, flushOp] at hrun
        exact ih sx sy sw scx scy [] sdl st' hrun hWrest hcz hl hd
      | cons it0 restI =>
        simp only [layoutItems, flushOp] at hrun
        refine ih sx sy sw _ _ _ _ st' hrun hWrest (fun _ => rfl) ?_ ?_
        · intro it hit
          exact absurd hit (List.not_mem_nil it)
        · intro dx dy w fnt col hdm hwle
          rcases List.mem_append.mp hdm with hold | hnew
          · exact hd dx dy w fnt col hold hwle
          · obtain ⟨it, hit, hdeq⟩ := List.mem_map.mp hnew
            have hfit := hl it hit
            simp only [DispItem.textAbs.injEq] at hdeq
            obtain ⟨h1, h2, h3, h4, h5⟩ := hdeq
            subst h1; subst h3; subst h4
            omega
    | wordI node w =>
      cases hfont : computeFont ff pf node with
      | none => simp [layoutItems, wordOp, hfont] at hrun
      | some fnt =>
        simp only [layoutItems, wordOp, hfont, Option.bind_eq_bind,
          Option.some_bind] at hrun
        by_cases hflush : scx + fnt.measure w > sw
        · rw [if_pos hflush] at hrun
          cases sline with
          | nil =>
            have hcx : scx = 0 := hcz rfl
            subst hcx
            simp only [flushOp] at hrun
            refine ih sx sy sw _ scy _ sdl st' hrun hWrest
              (by intro hemp; exact absurd hemp (by simp)) ?_ hd
            intro it hit
            rcases List.mem_append.mp hit with hnil | hone
            · exact absurd hnil (List.not_mem_nil it)
            · rcases List.mem_singleton.mp hone with rfl
              right; rfl
          | cons it0 restI =>
            simp only [flushOp] at hrun
            refine ih sx sy sw _ _ _ _ st' hrun hWrest
              (by intro hemp; exact absurd hemp (by simp)) ?_ ?_
            · intro it hit
              rcases List.mem_append.mp hit with hnil | hone
              · exact absurd hnil (List.not_mem_nil it)
              · rcases List.mem_singleton.mp hone with rfl
                right; rfl
            · intro dx dy w2 fnt2 col hdm hwle
              rcases List.mem_append.mp hdm with hold | hnew
              · exact hd dx dy w2 fnt2 col hold hwle
              · obtain ⟨it, hit, hdeq⟩ := List.mem_map.mp hnew
                have hfit := hl it hit
                simp only [DispItem.textAbs.injEq] at hdeq
                obtain ⟨h1, h2, h3, h4, h5⟩ := hdeq
                subst h1; subst h3; subst h4
                omega
        · rw [if_neg hflush] at hrun
          push_neg at hflush
          refine ih sx sy sw _ scy _ sdl st' hrun hWrest
            (by intro hemp; exact absurd hemp (by simp)) ?_ hd
          intro it hit
          rcases List.mem_append.mp hit with hold | hone
          · exact hl it hold
          · rcases List.mem_singleton.mp hone with rfl
            left
            simpa using hflush

/-- Claim C8, counterexample.  (i) A single word whose measured width
(80px) exceeds the block width (50px) is committed by `flush` at
`cursor_x = 0` with its right edge outside the block.  (ii) An `<input>`
widget (`INPUT_WIDTH_PX = 200`) advances `cursor_x` to 210 without
appending to `self.line`; the next word measures 600px, at most the
block width 759px, and `cursor_x + w > width` triggers a `flush`, but
the line is empty so `flush` returns early WITHOUT resetting `cursor_x`,
and the word is committed at relative x 210 with right edge
`210 + 600 = 810 > 759`.  In both cases the claim's inequality
`word.x + word.width ≤ block.x + block.width` fails — in (ii) even for
a word whose measured width fits the block. -/
theorem claim_C8_counterexample :
    (layoutItems ffTen pfSixteen [InlineItem.wordI nodePlain (strL "abcdefgh")]
        (initLayout 0 0 50) =
      some (⟨0, 0, 50, 0, 17, [],
        [DispItem.textAbs 0 0 (strL "abcdefgh")
          (ffTen 12 (strL "normal") (strL "roman")) (strL "black")]⟩ : LayoutSt) ∧
      (0 : Int) + 50 < 0 +
        (ffTen 12 (strL "normal") (strL "roman")).measure (strL "abcdefgh")) ∧
    (layoutItems ffTen pfSixteen
        [InlineItem.widgetI wInput, InlineItem.wordI nodePlain word60]
        (initLayout 0 0 759) =
      some (⟨0, 0, 759, 0, 17, [],
        [DispItem.textAbs 0 0 [] (ffTen 12 (strL "normal") (strL "roman")) (strL "black"),
         DispItem.textAbs 210 0 word60
           (ffTen 12 (strL "normal") (strL "roman")) (strL "black")]⟩ : LayoutSt) ∧
      (ffTen 12 (strL "normal") (strL "roman")).measure word60 ≤ 759 ∧
      (0 : Int) + 759 < 210 +
        (ffTen 12 (strL "normal") (strL "roman")).measure word60) :=
  ⟨⟨rfl, by decide⟩, rfl, by decide, by decide⟩

/-- Claim C8, amended: after an inline layout whose content holds no
`input`/`button` widget, every word committed to a line by `flush` whose
measured width is at most the block width satisfies
`word.x + word.width ≤ block.x + block.width`.  (A single word wider
than the block is committed at `cursor_x = 0` and overflows; and after a
widget, which advances `cursor_x` without appending to `self.line`, even
a word whose measured width fits the block can be committed overflowing,
because the empty-line early return of `flush` does not reset
`cursor_x`: see the counterexample.) -/
theorem claim_C8_amended (ff : Int → Str → Str → FontI) (pf : Str → Option ℚ)
    (x y width : Int) (items : List InlineItem) (st' : LayoutSt)
    (hrun : layoutItems ff pf items (initLayout x y width) = some st')
    (hW : ∀ it ∈ items, ∀ n, it ≠ InlineItem.widgetI n) :
    ∀ (dx dy : Int) (w : Str) (fnt : FontI) (col : Str),
      DispItem.textAbs dx dy w fnt col ∈ st'.display_list →
      fnt.measure w ≤ width → dx + fnt.measure w ≤ x + width := by
  have h := layoutItems_inv ff pf items x y width 0 0 [] [] st' hrun hW
    (fun _ => rfl)
    (by intro it hit; exact absurd hit (List.not_mem_nil it))
    (by intro dx dy w fnt col hm; exact absurd hm (List.not_mem_nil _))
  exact h.2.2

/-- Witness for C8 at a fitting word: `"ab"` measures 20px in a block
100px wide, the inline content is the one word, and the committed word
stays inside the block. -/
theorem claim_C8_witness :
    ∃ st', layoutItems ffTen pfSixteen [InlineItem.wordI nodePlain (strL "ab")]
        (initLayout 0 0 100) = some st' ∧
      ∀ (dx dy : Int) (w : Str) (fnt : FontI) (col : Str),
        DispItem.textAbs dx dy w fnt col ∈ st'.display_list →
        fnt.measure w ≤ 100 → dx + fnt.measure w ≤ (0 : Int) + 100 := by
  refine ⟨_, rfl, claim_C8_amended ffTen pfSixteen 0 0 100
    [InlineItem.wordI nodePlain (strL "ab")] _ rfl ?_⟩
  intro it hit n
  rcases List.mem_singleton.mp hit with rfl
  intro h
  exact InlineItem.noConfusion h

/-- The `cookies` list collected by the send loop is the in-order
rendering of the unexpired, non-SameSite-blocked entries. -/
theorem cookieSendLoop_fst (pf pd : Str → Option Int) (now : Int)
    (isPost cross : Bool) (jar : JarO) :
    (cookieSendLoop pf pd now isPost cross jar).1 =
      (jar.filter (fun e => !expiredReq pf pd now e.2.2 &&
        !(samesiteLax e.2.2 && isPost && cross))).map (fun e => fmtCookie e.1 e.2.1) := by
  induction jar with
  | nil => rfl
  | cons e rest ih =>
    obtain ⟨name, value, ps⟩ := e
    cases h3 : isPost <;> cases h4 : cross <;> simp only [h3, h4] at ih ⊢ <;>
      cases h1 : expiredReq pf pd now ps <;> cases h2 : samesiteLax ps <;>
      simp [cookieSendLoop, List.filter_cons, h1, h2, ih]

/-- The `remove_names` list collected by the send loop is the in-order
list of names of expired entries. -/
theorem cookieSendLoop_snd (pf pd : Str → Option Int) (now : Int)
    (isPost cross : Bool) (jar : JarO) :
    (cookieSendLoop pf pd now isPost cross jar).2 =
      (jar.filter (fun e => expiredReq pf pd now e.2.2)).map (fun e => e.1) := by
  induction jar with
  | nil => rfl
  | cons e rest ih =>
    obtain ⟨name, value, ps⟩ := e
    cases h3 : isPost <;> cases h4 : cross <;> simp only [h3, h4] at ih ⊢ <;>
      cases h1 : expiredReq pf pd now ps <;> cases h2 : samesiteLax ps <;>
      simp [cookieSendLoop, List.filter_cons, h1, h2, ih]

/-- Under distinct cookie names, popping the collected `remove_names`
from the jar removes exactly the expired entries. -/
theorem popNames_expired (p : Str × Str × Params → Bool) (jar : JarO)
    (hN : (jar.map (fun e => e.1)).Nodup) :
    popNames jar ((jar.filter p).map (fun e => e.1)) = jar.filter (fun e => !p e) := by
  unfold popNames
  refine List.filter_congr (fun e he => ?_)
  have hiff : e.1 ∈ (jar.filter p).map (fun e => e.1) ↔ p e = true := by
    constructor
    · intro hmem
      obtain ⟨e2, he2, heq⟩ := List.mem_map.mp hmem
      have he2' := List.mem_of_mem_filter he2
      have hp2 := List.of_mem_filter he2
      have : e2 = e := List.inj_on_of_nodup_map hN he2' he heq
      exact this ▸ hp2
    · intro hp
      exact List.mem_map.mpr ⟨e, List.mem_filter.mpr ⟨he, hp⟩, rfl⟩
  by_cases hp : p e = true
  · simp [hp, hiff.mpr hp]
  · have : e.1 ∉ (jar.filter p).map (fun e => e.1) := fun hmem => hp (hiff.mp hmem)
    simp [hp, this]

/-- Claim C3: in `URL.request`'s Cookie-header construction, every
expired cookie (`Expires` parsed and in the past) is omitted and removed
from the jar; every `SameSite=Lax` cookie is omitted when the method is
POST (a payload is present) and the referrer origin exists and differs
from the request origin; and the remaining cookies are sent in order as
`name=value` joined by `"; "` in a single Cookie header value. -/
theorem claim_C3 (pf pd : Str → Option Int) (now : Int) (url : URLm)
    (referrer payload : Option Str) (jar : JarO)
    (hN : (jar.map (fun e => e.1)).Nodup)
    (hWf : ∀ e ∈ jar, ssWfB e.2.2 = true) :
    (requestCookieHeader pf pd now url referrer payload jar).2 =
      jar.filter (fun e => !expiredReq pf pd now e.2.2) ∧
    (requestCookieHeader pf pd now url referrer payload jar).1 =
      (if ((jar.filter (fun e => !expiredReq pf pd now e.2.2 &&
            !(samesiteLax e.2.2 && payload.isSome &&
              crossSiteOf referrer (originStr url)))).map
            (fun e => fmtCookie e.1 e.2.1)) ≠ [] then
        some (interc (strL "; ")
          ((jar.filter (fun e => !expiredReq pf pd now e.2.2 &&
            !(samesiteLax e.2.2 && payload.isSome &&
              crossSiteOf referrer (originStr url)))).map
            (fun e => fmtCookie e.1 e.2.1)))
      else none) := by
  simp only [requestCookieHeader]
  rw [cookieSendLoop_fst, cookieSendLoop_snd, popNames_expired _ _ hN]
  exact ⟨rfl, rfl⟩

/-- Witness for C3: a jar with an expired cookie, a `SameSite=Lax`
cookie and a plain cookie, on a cross-site POST: the expired cookie is
dropped from the jar, and only the plain cookie is sent. -/
theorem claim_C3_witness :
    (requestCookieHeader (fun _ => none)
        (fun s => if s = strL "past" then some 10 else none) 100
        ⟨strL "http", strL "a", 80, strL "/"⟩
        (some (strL "http://b/")) (some (strL "q=1"))
        [(strL "sid", (strL "abc", [(strL "samesite", .pstr (strL "Lax"))])),
         (strL "old", (strL "x", [(strL "expires", .pstr (strL "past"))])),
         (strL "keep", (strL "y", []))]).2 =
      [(strL "sid", (strL "abc", [(strL "samesite", .pstr (strL "Lax"))])),
       (strL "keep", (strL "y", []))] ∧
    (requestCookieHeader (fun _ => none)
        (fun s => if s = strL "past" then some 10 else none) 100
        ⟨strL "http", strL "a", 80, strL "/"⟩
        (some (strL "http://b/")) (some (strL "q=1"))
        [(strL "sid", (strL "abc", [(strL "samesite", .pstr (strL "Lax"))])),
         (strL "old", (strL "x", [(strL "expires", .pstr (strL "past"))])),
         (strL "keep", (strL "y", []))]).1 =
      some (strL "keep=y") := by
  have h := claim_C3 (fun _ => none)
    (fun s => if s = strL "past" then some 10 else none) 100
    ⟨strL "http", strL "a", 80, strL "/"⟩
    (some (strL "http://b/")) (some (strL "q=1"))
    [(strL "sid", (strL "abc", [(strL "samesite", .pstr (strL "Lax"))])),
     (strL "old", (strL "x", [(strL "expires", .pstr (strL "past"))])),
     (strL "keep", (strL "y", []))]
    (by decide) (by decide)
  refine ⟨h.1.trans (by decide), h.2.trans (by decide)⟩

/-- The `document.cookie` read loop renders exactly the entries that are
neither HttpOnly nor expired, in order. -/
theorem getCookieLoop_fst (pd : Str → Option Int) (now : Int) (jar : JarO) :
    (getCookieLoop pd now jar).1 =
      (jar.filter (fun e => !hasHttpOnly e.2.2 && !expiredRead pd now e.2.2)).map
        (fun e => fmtCookieFull e.1 e.2.1 e.2.2) := by
  induction jar with
  | nil => rfl
  | cons e rest ih =>
    obtain ⟨name, value, ps⟩ := e
    cases h1 : hasHttpOnly ps <;> cases h2 : expiredRead pd now ps <;>
      simp [getCookieLoop, List.filter_cons, h1, h2, ih]

/-- Claim C4: HttpOnly cookies never cross the script boundary.  First,
`JSContext.get_cookie` emits exactly the non-HttpOnly unexpired cookies
(so every cookie whose params carry the `httponly` flag is omitted).
Second, `JSContext.set_cookie` stores nothing when the parsed attributes
include HttpOnly. -/
theorem claim_C4 :
    (∀ (pd : Str → Option Int) (now : Int) (jar : JarO),
      (get_cookie pd now jar).1 =
        interc (strL "; ")
          ((jar.filter (fun e => !hasHttpOnly e.2.2 && !expiredRead pd now e.2.2)).map
            (fun e => fmtCookieFull e.1 e.2.1 e.2.2))) ∧
    (∀ (pd : Str → Option Int) (jar : JarO) (s name val : Str) (ps : Params),
      parsedSetCookie s = some (name, val, ps) → hasHttpOnly ps = true →
      set_cookie pd jar s = jar) := by
  constructor
  · intro pd now jar
    simp only [get_cookie]
    rw [getCookieLoop_fst]
  · intro pd jar s name val ps hparse hhttp
    unfold set_cookie
    rw [hparse]
    simp [hhttp]

/-- Witness for C4: a jar whose only cookie is HttpOnly reads back as the
empty string through `document.cookie`, and a script `Set-Cookie` string
carrying `HttpOnly` leaves the jar untouched. -/
theorem claim_C4_witness :
    (get_cookie (fun _ => none) 0
      [(strL "sid", (strL "abc", [(strL "httponly", .pstr [])]))]).1 = strL "" ∧
    set_cookie (fun _ => none)
      [(strL "keep", (strL "v", []))] (strL "sid=1; HttpOnly") =
      [(strL "keep", (strL "v", []))] := by
  constructor
  · exact (claim_C4.1 (fun _ => none) 0
      [(strL "sid", (strL "abc", [(strL "httponly", .pstr [])]))]).trans (by decide)
  · exact claim_C4.2 (fun _ => none) [(strL "keep", (strL "v", []))]
      (strL "sid=1; HttpOnly") (strL "sid") (strL "1")
      [(strL "httponly", .pstr [])] (by decide) (by decide)

/-- Looking up a key just written by Python dict assignment returns the
new value. -/
theorem dictGet_dictInsert {α : Type} (k : Str) (v : α) (l : List (Str × α)) :
    dictGet k (dictInsert k v l) = some v := by
  induction l with
  | nil => simp [dictInsert, dictGet]
  | cons e rest ih =>
    obtain ⟨k2, v2⟩ := e
    by_cases hk : k2 = k
    · simp [dictInsert, dictGet, hk]
    · simp [dictInsert, dictGet, hk, ih]

/-- Claim C10: a script can overwrite an existing HttpOnly cookie: when
the jar holds `(n, (old, ps))` with the `httponly` flag in `ps`,
`JSContext.set_cookie` on `"n=v"` (no attributes) replaces the stored
entry with `(v, {})`, losing the HttpOnly-flagged value.  The character
hypotheses make `"n=v"` a plain name/value cookie string. -/
theorem claim_C10 (pd : Str → Option Int) (jar : JarO) (n v old : Str) (ps : Params)
    (hn : ∀ c ∈ n, c ≠ '=' ∧ c ≠ ';' ∧ isPySpace c = false)
    (hv : ∀ c ∈ v, c ≠ ';' ∧ isPySpace c = false)
    (hmem : (n, (old, ps)) ∈ jar) (hHttp : hasHttpOnly ps = true) :
    set_cookie pd jar (n ++ ['='] ++ v) = dictInsert n (v, ([] : Params)) jar ∧
    dictGet n (dictInsert n (v, ([] : Params)) jar) = some (v, ([] : Params)) := by
  have hall : ∀ c ∈ n ++ '=' :: v, isPySpace c = false := by
    intro c hc
    rcases List.mem_append.mp hc with hcl | hcr
    · exact (hn c hcl).2.2
    · rcases List.mem_cons.mp hcr with hce | hcv
      · subst hce; decide
      · exact (hv c hcv).2
  have hnosemi : ∀ x ∈ n ++ '=' :: v, x ≠ ';' := by
    intro x hx
    rcases List.mem_append.mp hx with hcl | hcr
    · exact (hn x hcl).2.1
    · rcases List.mem_cons.mp hcr with hce | hcv
      · subst hce; decide
      · exact (hv x hcv).1

  have hne : '=' ∉ n := fun hmm => (hn '=' hmm).1 rfl
  have hparse : parsedSetCookie (n ++ ['='] ++ v) = some (n, v, ([] : Params)) := by
    unfold parsedSetCookie
    rw [show n ++ ['='] ++ v = n ++ '=' :: v from by simp]
    rw [pyStrip_id _ hall]
    have hnonempty : n ++ '=' :: v ≠ [] := by simp
    rw [if_neg hnonempty]
    rw [splitAllChar_no_sep ';' _ hnosemi]
    simp only [List.map_cons, List.map_nil]
    rw [pyStrip_id _ hall]
    rw [splitFirstChar_append '=' n v hne]
    rfl
  constructor
  · unfold set_cookie
    rw [hparse]
    simp [hasHttpOnly, paramsGet, dictGet, truthyPVal]
  · exact dictGet_dictInsert n (v, ([] : Params)) jar

/-- Witness for C10: overwriting the HttpOnly cookie `sid` with
`document.cookie = "sid=xyz"`. -/
theorem claim_C10_witness :
    set_cookie (fun _ => none)
      [(strL "sid", (strL "secret", [(strL "httponly", .pstr [])]))]
      (strL "sid" ++ ['='] ++ strL "xyz") =
      dictInsert (strL "sid") (strL "xyz", ([] : Params))
        [(strL "sid", (strL "secret", [(strL "httponly", .pstr [])]))] ∧
    dictGet (strL "sid")
      (dictInsert (strL "sid") (strL "xyz", ([] : Params))
        [(strL "sid", (strL "secret", [(strL "httponly", .pstr [])]))]) =
      some (strL "xyz", ([] : Params)) :=
  claim_C10 (fun _ => none)
    [(strL "sid", (strL "secret", [(strL "httponly", .pstr [])]))]
    (strL "sid") (strL "xyz") (strL "secret") [(strL "httponly", .pstr [])]
    (by decide) (by decide) (by decide) (by decide)

/-- The fetch produced by `Tab._restore_history_entry` carries no
payload, has method GET, and targets a history entry's url. -/
theorem restore_spec (t : TabH) (c : FetchCall)
    (h : restore_history_entry t = some c) :
    c.payload = none ∧ requestMethod c.payload = strL "GET" ∧
    ∃ e ∈ t.history, c.url = e.url := by
  unfold restore_history_entry at h
  obtain ⟨e, he, hc⟩ := Option.map_eq_some'.mp h
  subst hc
  refine ⟨rfl, rfl, e, ?_, rfl⟩
  unfold entryAt at he
  split at he
  · exact List.get?_mem he
  · exact absurd he (by simp)

/-- Claim C6: history navigation never replays a POST: any fetch emitted
by `Tab.go_back`, `Tab.go_forward` or `Tab.reload` carries `payload=None`
(hence method GET) and targets a history entry's url. -/
theorem claim_C6 (t : TabH) :
    (∀ c, (go_back t).2 = some c →
      c.payload = none ∧ requestMethod c.payload = strL "GET" ∧
      ∃ e ∈ t.history, c.url = e.url) ∧
    (∀ c, (go_forward t).2 = some c →
      c.payload = none ∧ requestMethod c.payload = strL "GET" ∧
      ∃ e ∈ t.history, c.url = e.url) ∧
    (∀ c, reloadTab t = some c →
      c.payload = none ∧ requestMethod c.payload = strL "GET" ∧
      ∃ e ∈ t.history, c.url = e.url) := by
  refine ⟨?_, ?_, ?_⟩
  · intro c hc
    unfold go_back at hc
    split at hc
    · exact restore_spec { t with history_index := t.history_index - 1 } c hc
    · exact absurd hc (by simp)
  · intro c hc
    unfold go_forward at hc
    split at hc
    · exact restore_spec { t with history_index := t.history_index + 1 } c hc
    · exact absurd hc (by simp)
  · intro c hc
    unfold reloadTab at hc
    split at hc
    · exact restore_spec t c hc
    · exact absurd hc (by simp)

/-- Witness for C6: a history holding a POSTed entry with a body is
restored by `go_back` as a fetch with no payload (a GET) of a recorded
url. -/
theorem claim_C6_witness :
    (⟨strL "http://a/", none⟩ : FetchCall).payload = none ∧
    requestMethod (⟨strL "http://a/", none⟩ : FetchCall).payload = strL "GET" ∧
    ∃ e ∈ [(⟨strL "http://a/", strL "GET", none⟩ : HistEntry),
           ⟨strL "http://a/add", strL "POST", some (strL "guest=Alice")⟩],
      (⟨strL "http://a/", none⟩ : FetchCall).url = e.url :=
  (claim_C6 ⟨[⟨strL "http://a/", strL "GET", none⟩,
      ⟨strL "http://a/add", strL "POST", some (strL "guest=Alice")⟩], 1⟩).1
    ⟨strL "http://a/", none⟩ rfl

/-- Parent-consistency of a forest splits over append. -/
theorem consForest_append (pid : Option Nat) (l1 l2 : List DNode) :
    consForest pid (l1 ++ l2) ↔ consForest pid l1 ∧ consForest pid l2 := by
  induction l1 with
  | nil => simp [consForest]
  | cons c rest ih => simp [consForest, ih, and_assoc]

/-- Appending a child changes none of the identity fields read by the
stack invariants. -/
theorem adjOk_appendChild (o : OpenE) (n : DNode) (rest : List OpenE)
    (h : adjOk (o :: rest)) : adjOk (appendChild o n :: rest) := by
  cases rest with
  | nil => exact h
  | cons o2 rest2 => exact h

/-- Attaching a consistent child keeps the stack's children consistent. -/
theorem stackOk_appendChild (o : OpenE) (n : DNode) (rest : List OpenE)
    (h : stackOk (o :: rest)) (hn : consTree (some o.oid) n) :
    stackOk (appendChild o n :: rest) := by
  obtain ⟨hhead, htail⟩ := h
  refine ⟨?_, htail⟩
  show consForest (some o.oid) (o.children ++ [n])
  exact (consForest_append _ _ _).mpr ⟨hhead, hn, trivial⟩

/-- Appending a child to the stack head keeps the bottom `html`. -/
theorem bottomOk_appendChild (o : OpenE) (n : DNode) (rest : List OpenE)
    (h : bottomOk (o :: rest)) : bottomOk (appendChild o n :: rest) := by
  cases rest with
  | nil => exact h
  | cons o2 rest2 => exact h

/-- Popping the stack top and attaching it below preserves all three
stack invariants (this is the close-tag step and the `finish` loop step). -/
theorem close_preserve (o1 o2 : OpenE) (rest : List OpenE)
    (hadj : adjOk (o1 :: o2 :: rest)) (hstk : stackOk (o1 :: o2 :: rest))
    (hbot : bottomOk (o1 :: o2 :: rest)) :
    adjOk (appendChild o2 (closeOpen o1) :: rest) ∧
    stackOk (appendChild o2 (closeOpen o1) :: rest) ∧
    bottomOk (appendChild o2 (closeOpen o1) :: rest) := by
  obtain ⟨hpar, hadj2⟩ := hadj
  obtain ⟨hcf1, hstk2⟩ := hstk
  refine ⟨adjOk_appendChild o2 _ rest hadj2, ?_, bottomOk_appendChild o2 _ rest hbot⟩
  refine stackOk_appendChild o2 _ rest hstk2 ?_
  exact ⟨hpar, hcf1⟩

/-- `implicit_tags` run on tag `html` with an empty stack breaks at once. -/
theorem implicitBreakNilHtml (f : Nat) (st : HState) (h : st.stack = []) :
    implicitTagsF f (some (strL "html")) st = some st := by
  cases f with
  | zero => rfl
  | succ f2 => simp [implicitTagsF, h]

/-- `implicit_tags` run on a tag in `{head, body, /html}` with a
one-element stack breaks at once. -/
theorem implicitBreakOne (f : Nat) (st : HState) (o1 : OpenE) (tg : Str)
    (hstack : st.stack = [o1])
    (htg : tagInOpt (some tg) [strL "head", strL "body", strL "/html"] = true) :
    implicitTagsF f (some tg) st = some st := by
  cases f with
  | zero => rfl
  | succ f2 => simp [implicitTagsF, hstack, htg]

/-- `implicit_tags` run on a tag in `{/head} ∪ HEAD_TAGS` with a
two-element stack breaks at once. -/
theorem implicitBreakTwo (f : Nat) (st : HState) (o1 o2 : OpenE) (tg : Str)
    (hstack : st.stack = [o1, o2])
    (htg : tagInOpt (some tg) (strL "/head" :: HEAD_TAGS) = true) :
    implicitTagsF f (some tg) st = some st := by
  cases f with
  | zero => rfl
  | succ f2 => simp [implicitTagsF, hstack, htg]

/-- The nested `add_tag("html")` call of `implicit_tags` on an empty
stack pushes the `html` element. -/
theorem addHtmlAtNil (f : Nat) (st : HState) (h : st.stack = []) :
    addTagWith (fun t s => implicitTagsF f t s) (strL "html") st =
      some ⟨[⟨st.nextId, none, strL "html", [], []⟩], st.nextId + 1⟩ := by
  unfold addTagWith
  rw [if_neg (by decide)]
  have hga : get_attributes (strL "html") = (strL "html", []) := by decide
  simp only [hga]
  rw [implicitBreakNilHtml f st h]
  simp only [Option.some_bind]
  unfold addTagCore
  rw [if_neg (by decide), if_neg (by decide)]
  simp only [h]

/-- The nested `add_tag` calls of `implicit_tags` for a plain
non-self-closing tag (here: `head` or `body`) push onto a nonempty
stack. -/
theorem addSimpleAtCons (f : Nat) (st : HState) (tg : Str) (o1 : OpenE)
    (rest2 : List OpenE) (hstack : st.stack = o1 :: rest2)
    (hbreak : implicitTagsF f (some tg) st = some st)
    (hbang : ¬ tg.head? = some '!') (hslash : ¬ tg.head? = some '/')
    (hsc : tg ∉ SELF_CLOSING_TAGS) (hga : get_attributes tg = (tg, [])) :
    addTagWith (fun t s => implicitTagsF f t s) tg st =
      some ⟨⟨st.nextId, some o1.oid, tg, [], []⟩ :: o1 :: rest2, st.nextId + 1⟩ := by
  unfold addTagWith
  rw [if_neg (by simpa [hga] using hbang)]
  simp only [hga]
  rw [hbreak]
  simp only [Option.some_bind]
  unfold addTagCore
  rw [if_neg hslash, if_neg (by simpa using hsc)]
  simp only [hstack]

/-- The nested `add_tag("/head")` call of `implicit_tags` on a
`[html, head]` stack pops the head and attaches it to `html`. -/
theorem addCloseHeadAtTwo (f : Nat) (st : HState) (o1 o2 : OpenE)
    (hstack : st.stack = [o1, o2])
    (hbreak : implicitTagsF f (some (strL "/head")) st = some st) :
    addTagWith (fun t s => implicitTagsF f t s) (strL "/head") st =
      some ⟨[appendChild o2 (closeOpen o1)], st.nextId⟩ := by
  unfold addTagWith
  rw [if_neg (by decide)]
  have hga : get_attributes (strL "/head") = (strL "/head", []) := by decide
  simp only [hga]
  rw [hbreak]
  simp only [Option.some_bind]
  unfold addTagCore
  rw [if_pos (by decide)]
  simp only [hstack]

/-- Specification of the `implicit_tags` loop: it always returns (the
fuel never binds and its nested `add_tag` calls never raise), it
preserves the stack invariant, it keeps a nonempty stack nonempty, and
for any tag other than `html` it leaves a nonempty stack. -/
theorem implicitTagsF_spec : ∀ (fuel : Nat) (tag : Option Str) (st : HState),
    hInv st → ∃ st2, implicitTagsF fuel tag st = some st2 ∧ hInv st2 ∧
      (st.stack ≠ [] → st2.stack ≠ []) ∧
      (1 ≤ fuel → tag ≠ some (strL "html") → st2.stack ≠ []) := by
  intro fuel
  induction fuel with
  | zero =>
    intro tag st hi
    exact ⟨st, rfl, hi, id, fun h => absurd h (by omega)⟩
  | succ f ih =>
    intro tag st hi
    obtain ⟨hadj, hstk, hbot⟩ := hi
    cases hstack : st.stack with
    | nil =>
      rw [hstack] at hadj hstk hbot
      by_cases htag : tag = some (strL "html")
      · refine ⟨st, ?_, ⟨hstack ▸ hadj, hstack ▸ hstk, hstack ▸ hbot⟩,
          fun h => absurd rfl h, fun _ hne => absurd htag hne⟩
        simp [implicitTagsF, hstack, htag]
      · have hadd := addHtmlAtNil f st hstack
        obtain ⟨st2, hrun2, hi2, hne2, _⟩ :=
          ih tag ⟨[⟨st.nextId, none, strL "html", [], []⟩], st.nextId + 1⟩
            ⟨rfl, ⟨trivial, trivial⟩, rfl⟩
        refine ⟨st2, ?_, hi2, fun _ => hne2 (by simp), fun _ _ => hne2 (by simp)⟩
        simp only [implicitTagsF, hstack]
        rw [if_pos htag, hadd]
        simp only [Option.some_bind]
        exact hrun2
    | cons o1 rest =>
      rw [hstack] at hadj hstk hbot
      cases rest with
      | nil =>
        by_cases hcond : o1.tag = strL "html" ∧
            tagInOpt tag [strL "head", strL "body", strL "/html"] = false
        · have hbr : ∀ tg2, tagInOpt (some tg2)
              [strL "head", strL "body", strL "/html"] = true →
              implicitTagsF f (some tg2) st = some st :=
            fun tg2 h2 => implicitBreakOne f st o1 tg2 hstack h2
          by_cases hhead : tagInOpt tag HEAD_TAGS = true
          · have hadd := addSimpleAtCons f st (strL "head") o1 [] hstack
              (hbr _ (by decide)) (by decide) (by decide) (by decide) (by decide)
            obtain ⟨st2, hrun2, hi2, hne2, _⟩ :=
              ih tag ⟨⟨st.nextId, some o1.oid, strL "head", [], []⟩ :: [o1], st.nextId + 1⟩
                ⟨⟨rfl, hadj⟩, ⟨trivial, hstk⟩, hcond.1⟩
            refine ⟨st2, ?_, hi2, fun _ => hne2 (by simp), fun _ _ => hne2 (by simp)⟩
            simp only [implicitTagsF, hstack]
            rw [if_pos hcond, if_pos hhead, hadd]
            simp only [Option.some_bind]
            exact hrun2
          · have hadd := addSimpleAtCons f st (strL "body") o1 [] hstack
              (hbr _ (by decide)) (by decide) (by decide) (by decide) (by decide)
            obtain ⟨st2, hrun2, hi2, hne2, _⟩ :=
              ih tag ⟨⟨st.nextId, some o1.oid, strL "body", [], []⟩ :: [o1], st.nextId + 1⟩
                ⟨⟨rfl, hadj⟩, ⟨trivial, hstk⟩, hcond.1⟩
            refine ⟨st2, ?_, hi2, fun _ => hne2 (by simp), fun _ _ => hne2 (by simp)⟩
            simp only [implicitTagsF, hstack]
            rw [if_pos hcond, if_neg hhead, hadd]
            simp only [Option.some_bind]
            exact hrun2
        · refine ⟨st, ?_, ⟨hstack ▸ hadj, hstack ▸ hstk, hstack ▸ hbot⟩,
            fun _ => by rw [hstack]; simp, fun _ _ => by rw [hstack]; simp⟩
          simp only [implicitTagsF, hstack]
          rw [if_neg hcond]
      | cons o2 rest2 =>
        cases rest2 with
        | nil =>
          by_cases hcond : o2.tag = strL "html" ∧ o1.tag = strL "head" ∧
              tagInOpt tag (strL "/head" :: HEAD_TAGS) = false
          · have hadd := addCloseHeadAtTwo f st o1 o2 hstack
              (implicitBreakTwo f st o1 o2 (strL "/head") hstack (by decide))
            have hpres := close_preserve o1 o2 [] hadj hstk hbot
            obtain ⟨st2, hrun2, hi2, hne2, _⟩ :=
              ih tag ⟨[appendChild o2 (closeOpen o1)], st.nextId⟩
                ⟨hpres.1, hpres.2.1, hpres.2.2⟩
            refine ⟨st2, ?_, hi2, fun _ => hne2 (by simp), fun _ _ => hne2 (by simp)⟩
            simp only [implicitTagsF, hstack]
            rw [if_pos hcond, hadd]
            simp only [Option.some_bind]
            exact hrun2
          · refine ⟨st, ?_, ⟨hstack ▸ hadj, hstack ▸ hstk, hstack ▸ hbot⟩,
              fun _ => by rw [hstack]; simp, fun _ _ => by rw [hstack]; simp⟩
            simp only [implicitTagsF, hstack]
            rw [if_neg hcond]
        | cons o3 rest3 =>
          refine ⟨st, ?_, ⟨hstack ▸ hadj, hstack ▸ hstk, hstack ▸ hbot⟩,
            fun _ => by rw [hstack]; simp, fun _ _ => by rw [hstack]; simp⟩
          simp only [implicitTagsF, hstack]

/-- `implicit_tags` breaks at once on a one-element stack whose firing
condition fails. -/
theorem implicitBreakOneNeg (f : Nat) (st : HState) (o1 : OpenE) (tag : Option Str)
    (hstack : st.stack = [o1])
    (h : ¬(o1.tag = strL "html" ∧
      tagInOpt tag [strL "head", strL "body", strL "/html"] = false)) :
    implicitTagsF f tag st = some st := by
  cases f with
  | zero => rfl
  | succ f2 =>
    simp only [implicitTagsF, hstack]
    rw [if_neg h]

/-- `implicit_tags` breaks at once on a two-element stack whose firing
condition fails. -/
theorem implicitBreakTwoNeg (f : Nat) (st : HState) (o1 o2 : OpenE) (tag : Option Str)
    (hstack : st.stack = [o1, o2])
    (h : ¬(o2.tag = strL "html" ∧ o1.tag = strL "head" ∧
      tagInOpt tag (strL "/head" :: HEAD_TAGS) = false)) :
    implicitTagsF f tag st = some st := by
  cases f with
  | zero => rfl
  | succ f2 =>
    simp only [implicitTagsF, hstack]
    rw [if_neg h]

/-- `implicit_tags` breaks at once on a stack of three or more elements. -/
theorem implicitBreakBig (f : Nat) (st : HState) (o1 o2 o3 : OpenE)
    (rest : List OpenE) (hstack : st.stack = o1 :: o2 :: o3 :: rest) :
    implicitTagsF f tag st = some st := by
  cases f with
  | zero => rfl
  | succ f2 => simp [implicitTagsF, hstack]

/-- A tag in the HEAD set is also in `{/head} ∪ HEAD_TAGS`. -/
theorem tagInOpt_head_cons (tag : Option Str)
    (h : tagInOpt tag HEAD_TAGS = true) :
    tagInOpt tag (strL "/head" :: HEAD_TAGS) = true := by
  cases tag with
  | none => exact absurd h (by simp [tagInOpt])
  | some t =>
    simp only [tagInOpt, decide_eq_true_eq] at h ⊢
    exact List.mem_cons_of_mem _ h

/-- On a one-element stack the `implicit_tags` loop gives the same
result for any positive fuel: it fires at most once and then breaks. -/
theorem implicitTagsF_stable_one (f g : Nat) (tag : Option Str) (st : HState)
    (o1 : OpenE) (hstack : st.stack = [o1]) (hf : 1 ≤ f) (hg : 1 ≤ g) :
    implicitTagsF f tag st = implicitTagsF g tag st := by
  obtain ⟨f1, rfl⟩ : ∃ k, f = k + 1 := ⟨f - 1, by omega⟩
  obtain ⟨g1, rfl⟩ : ∃ k, g = k + 1 := ⟨g - 1, by omega⟩
  by_cases hcond : o1.tag = strL "html" ∧
      tagInOpt tag [strL "head", strL "body", strL "/html"] = false
  · by_cases hhead : tagInOpt tag HEAD_TAGS = true
    · have hbrk : ∀ k, implicitTagsF k (some (strL "head")) st = some st :=
        fun k => implicitBreakOne k st o1 _ hstack (by decide)
      have haddf := addSimpleAtCons f1 st (strL "head") o1 [] hstack (hbrk f1)
        (by decide) (by decide) (by decide) (by decide)
      have haddg := addSimpleAtCons g1 st (strL "head") o1 [] hstack (hbrk g1)
        (by decide) (by decide) (by decide) (by decide)
      simp only [implicitTagsF, hstack]
      simp only [if_pos hcond, if_pos hhead]
      rw [haddf, haddg]
      simp only [Option.some_bind]
      rw [implicitBreakTwoNeg f1 _ _ o1 tag rfl
          (fun hc => by rw [tagInOpt_head_cons tag hhead] at hc; exact absurd hc.2.2 (by simp)),
        implicitBreakTwoNeg g1 _ _ o1 tag rfl
          (fun hc => by rw [tagInOpt_head_cons tag hhead] at hc; exact absurd hc.2.2 (by simp))]
    · have hbrk : ∀ k, implicitTagsF k (some (strL "body")) st = some st :=
        fun k => implicitBreakOne k st o1 _ hstack (by decide)
      have haddf := addSimpleAtCons f1 st (strL "body") o1 [] hstack (hbrk f1)
        (by decide) (by decide) (by decide) (by decide)
      have haddg := addSimpleAtCons g1 st (strL "body") o1 [] hstack (hbrk g1)
        (by decide) (by decide) (by decide) (by decide)
      simp only [implicitTagsF, hstack]
      simp only [if_pos hcond, if_neg hhead]
      rw [haddf, haddg]
      simp only [Option.some_bind]
      rw [implicitBreakTwoNeg f1 _ _ o1 tag rfl
          (fun hc => absurd hc.2.1 (by show ¬(strL "body" = strL "head"); decide)),
        implicitBreakTwoNeg g1 _ _ o1 tag rfl
          (fun hc => absurd hc.2.1 (by show ¬(strL "body" = strL "head"); decide))]
  · rw [implicitBreakOneNeg (f1 + 1) st o1 tag hstack hcond,
      implicitBreakOneNeg (g1 + 1) st o1 tag hstack hcond]

/-- The fuel of the embedded `implicit_tags` loop never binds: any two
fuels of at least two give the same result, so the fixed `FUEL = 8`
faithfully models Python's unbounded `while True` loop, which breaks
within three iterations from any stack. -/
theorem implicitTagsF_fuel_stable (f g : Nat) (tag : Option Str) (st : HState)
    (hf : 2 ≤ f) (hg : 2 ≤ g) :
    implicitTagsF f tag st = implicitTagsF g tag st := by
  obtain ⟨f1, rfl⟩ : ∃ k, f = k + 1 := ⟨f - 1, by omega⟩
  obtain ⟨g1, rfl⟩ : ∃ k, g = k + 1 := ⟨g - 1, by omega⟩
  cases hstack : st.stack with
  | nil =>
    by_cases htag : tag = some (strL "html")
    · subst htag
      rw [implicitBreakNilHtml _ st hstack, implicitBreakNilHtml _ st hstack]
    · simp only [implicitTagsF, hstack]
      simp only [if_pos htag]
      rw [addHtmlAtNil f1 st hstack, addHtmlAtNil g1 st hstack]
      simp only [Option.some_bind]
      exact implicitTagsF_stable_one f1 g1 tag _ _ rfl (by omega) (by omega)
  | cons o1 rest =>
    cases rest with
    | nil =>
      exact implicitTagsF_stable_one (f1 + 1) (g1 + 1) tag st o1 hstack
        (by omega) (by omega)
    | cons o2 rest2 =>
      cases rest2 with
      | nil =>
        by_cases hcond : o2.tag = strL "html" ∧ o1.tag = strL "head" ∧
            tagInOpt tag (strL "/head" :: HEAD_TAGS) = false
        · have haddf := addCloseHeadAtTwo f1 st o1 o2 hstack
            (implicitBreakTwo f1 st o1 o2 (strL "/head") hstack (by decide))
          have haddg := addCloseHeadAtTwo g1 st o1 o2 hstack
            (implicitBreakTwo g1 st o1 o2 (strL "/head") hstack (by decide))
          simp only [implicitTagsF, hstack]
          simp only [if_pos hcond]
          rw [haddf, haddg]
          simp only [Option.some_bind]
          exact implicitTagsF_stable_one f1 g1 tag _ _ rfl (by omega) (by omega)
        · rw [implicitBreakTwoNeg (f1 + 1) st o1 o2 tag hstack hcond,
            implicitBreakTwoNeg (g1 + 1) st o1 o2 tag hstack hcond]
      | cons o3 rest3 =>
        rw [implicitBreakBig (f1 + 1) st o1 o2 o3 rest3 hstack,
          implicitBreakBig (g1 + 1) st o1 o2 o3 rest3 hstack]

/-- `add_tag` never raises and preserves the stack invariant; a
nonempty stack stays nonempty. -/
theorem add_tag_spec (tagtext : Str) (st : HState) (hi : hInv st) :
    ∃ st2, add_tag tagtext st = some st2 ∧ hInv st2 ∧
      (st.stack ≠ [] → st2.stack ≠ []) := by
  unfold add_tag addTagWith
  by_cases hbang : tagtext.head? = some '!'
  · rw [if_pos hbang]
    exact ⟨st, rfl, hi, id⟩
  · rw [if_neg hbang]
    obtain ⟨st1, hrun1, hi1, hne1, hne1f⟩ :=
      implicitTagsF_spec FUEL (some (get_attributes tagtext).1) st hi
    obtain ⟨hadj1, hstk1, hbot1⟩ := hi1
    rw [hrun1]
    simp only [Option.some_bind]
    unfold addTagCore
    by_cases hslash : (get_attributes tagtext).1.head? = some '/'
    · rw [if_pos hslash]
      have htg : (get_attributes tagtext).1 ≠ strL "html" := by
        intro he
        rw [he] at hslash
        exact absurd hslash (by decide)
      have hne : st1.stack ≠ [] :=
        hne1f (by decide) (fun h => htg (Option.some.inj h))
      cases hstack1 : st1.stack with
      | nil => exact absurd hstack1 hne
      | cons o1 rest =>
        rw [hstack1] at hadj1 hstk1 hbot1
        cases rest with
        | nil =>
          refine ⟨st1, ?_, ⟨hstack1 ▸ hadj1, hstack1 ▸ hstk1, hstack1 ▸ hbot1⟩,
            fun _ => hne⟩
          simp only [hstack1]
        | cons o2 rest2 =>
          have hpres := close_preserve o1 o2 rest2 hadj1 hstk1 hbot1
          refine ⟨⟨appendChild o2 (closeOpen o1) :: rest2, st1.nextId⟩, ?_,
            ⟨hpres.1, hpres.2.1, hpres.2.2⟩, fun _ => by simp⟩
          simp only [hstack1]
    · rw [if_neg hslash]
      by_cases hsc : (get_attributes tagtext).1 ∈ SELF_CLOSING_TAGS
      · rw [if_pos hsc]
        have htg : (get_attributes tagtext).1 ≠ strL "html" := by
          intro he
          rw [he] at hsc
          exact absurd hsc (by decide)
        have hne : st1.stack ≠ [] :=
          hne1f (by decide) (fun h => htg (Option.some.inj h))
        cases hstack1 : st1.stack with
        | nil => exact absurd hstack1 hne
        | cons top rest =>
          rw [hstack1] at hadj1 hstk1 hbot1
          refine ⟨⟨appendChild top
              (.elem st1.nextId (some top.oid) (get_attributes tagtext).1
                (get_attributes tagtext).2 []) :: rest, st1.nextId + 1⟩, ?_,
            ⟨adjOk_appendChild top _ rest hadj1,
             stackOk_appendChild top _ rest hstk1 ⟨rfl, trivial⟩,
             bottomOk_appendChild top _ rest hbot1⟩, fun _ => by simp⟩
          simp only [hstack1]
      · rw [if_neg hsc]
        cases hstack1 : st1.stack with
        | nil =>
          have htg : (get_attributes tagtext).1 = strL "html" := by
            by_contra hc
            exact hne1f (by decide) (fun h => hc (Option.some.inj h)) hstack1
          refine ⟨⟨[⟨st1.nextId, none, (get_attributes tagtext).1,
              (get_attributes tagtext).2, []⟩], st1.nextId + 1⟩, ?_,
            ⟨rfl, ⟨trivial, trivial⟩, htg⟩, fun _ => by simp⟩
          simp only [hstack1]
        | cons top rest =>
          rw [hstack1] at hadj1 hstk1 hbot1
          refine ⟨⟨⟨st1.nextId, some top.oid, (get_attributes tagtext).1,
              (get_attributes tagtext).2, []⟩ :: top :: rest, st1.nextId + 1⟩, ?_,
            ⟨⟨rfl, hadj1⟩, ⟨trivial, hstk1⟩, hbot1⟩, fun _ => by simp⟩
          simp only [hstack1]

/-- `add_text` never raises and preserves the stack invariant; a
nonempty stack stays nonempty. -/
theorem add_text_spec (text : Str) (st : HState) (hi : hInv st) :
    ∃ st2, add_text text st = some st2 ∧ hInv st2 ∧
      (st.stack ≠ [] → st2.stack ≠ []) := by
  unfold add_text
  by_cases hsp : isSpaceStr text = true
  · rw [if_pos hsp]
    exact ⟨st, rfl, hi, id⟩
  · rw [if_neg hsp]
    obtain ⟨st1, hrun1, hi1, hne1, hne1f⟩ := implicitTagsF_spec FUEL none st hi
    obtain ⟨hadj1, hstk1, hbot1⟩ := hi1
    have hne : st1.stack ≠ [] := hne1f (by decide) (by simp)
    rw [hrun1]
    simp only [Option.some_bind]
    cases hstack1 : st1.stack with
    | nil => exact absurd hstack1 hne
    | cons top rest =>
      rw [hstack1] at hadj1 hstk1 hbot1
      refine ⟨⟨appendChild top (.text st1.nextId (some top.oid) text) :: rest,
          st1.nextId + 1⟩, ?_,
        ⟨adjOk_appendChild top _ rest hadj1,
         stackOk_appendChild top _ rest hstk1 rfl,
         bottomOk_appendChild top _ rest hbot1⟩, fun _ => by simp⟩
      simp only [hstack1]

/-- The character loop of `parse` never raises and preserves the stack
invariant. -/
theorem parseLoop_spec : ∀ (cs : List Char) (text : Str) (in_tag : Bool)
    (st : HState), hInv st →
    ∃ st2, parseLoop cs text in_tag st = some st2 ∧ hInv st2 := by
  intro cs
  induction cs with
  | nil =>
    intro text in_tag st hi
    simp only [parseLoop]
    by_cases hend : in_tag = false ∧ text ≠ []
    · rw [if_pos hend]
      obtain ⟨st2, hrun, hi2, _⟩ := add_text_spec text st hi
      exact ⟨st2, hrun, hi2⟩
    · rw [if_neg hend]
      exact ⟨st, rfl, hi⟩
  | cons c rest ih =>
    intro text in_tag st hi
    simp only [parseLoop]
    by_cases hlt : c = '<'
    · rw [if_pos hlt]
      by_cases htext : text ≠ []
      · rw [if_pos htext]
        obtain ⟨st1, hrun1, hi1, _⟩ := add_text_spec text st hi
        obtain ⟨st2, hrun2, hi2⟩ := ih [] true st1 hi1
        exact ⟨st2, by rw [hrun1]; simpa using hrun2, hi2⟩
      · rw [if_neg htext]
        obtain ⟨st2, hrun2, hi2⟩ := ih [] true st hi
        exact ⟨st2, by simpa using hrun2, hi2⟩
    · rw [if_neg hlt]
      by_cases hgt : c = '>'
      · rw [if_pos hgt]
        obtain ⟨st1, hrun1, hi1, _⟩ := add_tag_spec text st hi
        obtain ⟨st2, hrun2, hi2⟩ := ih [] false st1 hi1
        exact ⟨st2, by rw [hrun1]; simpa using hrun2, hi2⟩
      · rw [if_neg hgt]
        exact ih (text ++ [c]) in_tag st hi

/-- The `finish` loop produces a parent-consistent tree whose root is
the bottom `html` element with a null parent. -/
theorem finishAbsorb_spec : ∀ (rest : List OpenE) (top : OpenE),
    adjOk (top :: rest) → stackOk (top :: rest) → bottomOk (top :: rest) →
    consTree none (finishAbsorb top rest) ∧
    ∃ oid attrs children,
      finishAbsorb top rest = .elem oid none (strL "html") attrs children := by
  intro rest
  induction rest with
  | nil =>
    intro top hadj hstk hbot
    have hpar : top.parentId = none := hadj
    have htag : top.tag = strL "html" := hbot
    constructor
    · exact ⟨hpar, hstk.1⟩
    · exact ⟨top.oid, top.attrs, top.children, by
        simp only [finishAbsorb, closeOpen, hpar, htag]⟩
  | cons o rest2 ih =>
    intro top hadj hstk hbot
    have hpres := close_preserve top o rest2 hadj hstk hbot
    exact ih (appendChild o (closeOpen top)) hpres.1 hpres.2.1 hpres.2.2

/-- `finish` never raises, and returns a parent-consistent `html` root. -/
theorem finish_spec (st : HState) (hi : hInv st) :
    ∃ root, finish st = some root ∧ consTree none root ∧
      ∃ oid attrs children, root = .elem oid none (strL "html") attrs children := by
  unfold finish
  cases hstack : st.stack with
  | nil =>
    obtain ⟨st1, hrun1, hi1, _, hne1f⟩ := implicitTagsF_spec FUEL none st hi
    obtain ⟨hadj1, hstk1, hbot1⟩ := hi1
    have hne : st1.stack ≠ [] := hne1f (by decide) (by simp)
    rw [hrun1]
    simp only [Option.some_bind]
    cases hstack1 : st1.stack with
    | nil => exact absurd hstack1 hne
    | cons top rest =>
      rw [hstack1] at hadj1 hstk1 hbot1
      have h := finishAbsorb_spec rest top hadj1 hstk1 hbot1
      exact ⟨finishAbsorb top rest, by simp [finishLoop, hstack1], h.1, h.2⟩
  | cons top rest =>
    obtain ⟨hadj, hstk, hbot⟩ := hi
    rw [hstack] at hadj hstk hbot
    simp only [Option.some_bind]
    have h := finishAbsorb_spec rest top hadj hstk hbot
    exact ⟨finishAbsorb top rest, by simp [finishLoop, hstack], h.1, h.2⟩

/-- `parse` always succeeds and its root is parent-consistent. -/
theorem parse_spec (body : Str) :
    ∃ root, parse body = some root ∧ consTree none root ∧
      ∃ oid attrs children, root = .elem oid none (strL "html") attrs children := by
  unfold parse
  obtain ⟨st2, hrun, hi2⟩ :=
    parseLoop_spec body [] false ⟨[], 0⟩ ⟨trivial, trivial, trivial⟩
  rw [hrun]
  simp only [Option.some_bind]
  exact finish_spec st2 hi2

/-- Claim C9: `HTMLParser.parse` is total over arbitrary input strings:
it terminates without raising and returns a single root `Element` whose
tag is `html` (and whose parent is null). -/
theorem claim_C9 (body : Str) :
    ∃ oid attrs children,
      parse body = some (.elem oid none (strL "html") attrs children) := by
  obtain ⟨root, hrun, _, oid, attrs, children, hform⟩ := parse_spec body
  exact ⟨oid, attrs, children, hform ▸ hrun⟩

mutual

/-- In a parent-consistent tree, every node is the root or recorded as a
child of the element its parent pointer names. -/
theorem consTree_nodes (pid : Option Nat) (t : DNode) (h : consTree pid t) :
    ∀ n ∈ nodesOf t, (n = t ∧ parentIdOf n = pid) ∨
      ∃ p ∈ nodesOf t, isElem p ∧ n ∈ childrenOf p ∧
        parentIdOf n = some (oidOf p) := by
  cases t with
  | text oid p s =>
    intro n hn
    rcases List.mem_singleton.mp hn with rfl
    exact Or.inl ⟨rfl, h⟩
  | elem oid p tag attrs cs =>
    intro n hn
    rcases List.mem_cons.mp hn with rfl | hn2
    · exact Or.inl ⟨rfl, h.1⟩
    · rcases consForest_nodes (some oid) cs h.2 n hn2 with ⟨hmem, hpar⟩ | ⟨q, hq, he, hc, hp⟩
      · exact Or.inr ⟨.elem oid p tag attrs cs, List.mem_cons_self _ _,
          trivial, hmem, hpar⟩
      · exact Or.inr ⟨q, List.mem_cons_of_mem _ hq, he, hc, hp⟩

/-- Forest version of `consTree_nodes`. -/
theorem consForest_nodes (pid : Option Nat) (l : List DNode) (h : consForest pid l) :
    ∀ n ∈ nodesForest l, (n ∈ l ∧ parentIdOf n = pid) ∨
      ∃ p ∈ nodesForest l, isElem p ∧ n ∈ childrenOf p ∧
        parentIdOf n = some (oidOf p) := by
  cases l with
  | nil => intro n hn; exact absurd hn (List.not_mem_nil n)
  | cons c rest =>
    intro n hn
    rcases List.mem_append.mp hn with hn1 | hn2
    · rcases consTree_nodes pid c h.1 n hn1 with ⟨rfl, hpar⟩ | ⟨q, hq, he, hc2, hp⟩
      · exact Or.inl ⟨List.mem_cons_self _ _, hpar⟩
      · exact Or.inr ⟨q, List.mem_append.mpr (Or.inl hq), he, hc2, hp⟩
    · rcases consForest_nodes pid rest h.2 n hn2 with ⟨hmem, hpar⟩ | ⟨q, hq, he, hc2, hp⟩
      · exact Or.inl ⟨List.mem_cons_of_mem _ hmem, hpar⟩
      · exact Or.inr ⟨q, List.mem_append.mpr (Or.inr hq), he, hc2, hp⟩

end

/-- Claim C2: for every node `n` in the tree returned by
`HTMLParser.parse`, either `n` is the root and its parent pointer is
null, or `n`'s parent pointer names an `Element` of the tree whose
`children` list contains `n`. -/
theorem claim_C2 (body : Str) (root : DNode) (h : parse body = some root) :
    ∀ n ∈ nodesOf root, (n = root ∧ parentIdOf n = none) ∨
      ∃ p ∈ nodesOf root, isElem p ∧ n ∈ childrenOf p ∧
        parentIdOf n = some (oidOf p) := by
  obtain ⟨root2, hrun2, hcons, _⟩ := parse_spec body
  have : root2 = root := Option.some.inj (hrun2 ▸ h)
  subst this
  intro n hn
  rcases consTree_nodes none root2 hcons n hn with ⟨rfl, hpar⟩ | hr
  · exact Or.inl ⟨rfl, hpar⟩
  · exact Or.inr hr

/-- Witness for C2 on `"Hello<p>World"`: the text node `"Hello"` is in
its parent `body`'s children, with a matching parent pointer. -/
theorem claim_C2_witness :
    (DNode.text 2 (some 1) (strL "Hello") = c1Tree ∧
      parentIdOf (DNode.text 2 (some 1) (strL "Hello")) = none) ∨
    ∃ p ∈ nodesOf c1Tree, isElem p ∧
      DNode.text 2 (some 1) (strL "Hello") ∈ childrenOf p ∧
      parentIdOf (DNode.text 2 (some 1) (strL "Hello")) = some (oidOf p) :=
  claim_C2 (strL "Hello<p>World") c1Tree rfl
    (DNode.text 2 (some 1) (strL "Hello"))
    (by simp [c1Tree, nodesOf, nodesForest])

end BrowserPy
